import Mathlib

/-!
Verification of the bromiumjs reactivity core and renderer.

The definitions below are a shallow embedding of the repository's code:
* `packages/core/dist/dep.js` (dependency tracker),
* `packages/core/src/effect.ts` (effect, computed, job queue),
* `packages/core/src/ref.js` (refs and the reactive proxy layer),
* the DOM renderer (`patchChildren`, `unmount`, `createApp`).
-/

namespace Bromium

/-! ## Dependency tracker (packages/core/dist/dep.js) -/

abbrev EffectId := Nat

abbrev Target := Nat

/-- Property keys: string keys, or symbols.  Each JS `Symbol(..)` call yields a
fresh symbol; symbols are identified here by the value of a counter. -/
inductive PKey where
  | str (s : String)
  | sym (n : Nat)
deriving DecidableEq, Repr

/-- A dependency key: a (target, property key) pair, one per `deps` set of
`targetMap` in dep.js. -/
abbrev DKey := Target × PKey

/-- JS `Set.add`: append if not already present (insertion ordered, duplicate
free). -/
def addUnique {α : Type} [DecidableEq α] (xs : List α) (x : α) : List α :=
  if x ∈ xs then xs else xs ++ [x]

/-- The tracker's global state: `targetMap` (per target and key, the set of
subscribed effects, as an insertion-ordered duplicate-free list), each effect's
own `deps` collection (`effDeps`, the keys of the dep sets it joined), and the
effect stack (head is the top, i.e. the `activeEffect`). -/
structure TrackerState where
  targetMap : Target → PKey → List EffectId
  effDeps : EffectId → List DKey
  effectStack : List EffectId

/-- `getActiveEffect()`: the top of the effect stack, if any. -/
def getActiveEffect (s : TrackerState) : Option EffectId :=
  s.effectStack.head?

/-- `pushEffect(effect)`: push onto the stack and make active. -/
def pushEffect (s : TrackerState) (e : EffectId) : TrackerState :=
  { s with effectStack := e :: s.effectStack }

/-- `popEffect()`: pop the stack; the previous effect (or none) becomes active. -/
def popEffect (s : TrackerState) : TrackerState :=
  { s with effectStack := s.effectStack.tail }

/-- Pointwise update of the dependency map at one (target, key). -/
def updDep (f : Target → PKey → List EffectId) (t : Target) (k : PKey)
    (v : List EffectId) : Target → PKey → List EffectId :=
  fun u l => if u = t ∧ l = k then v else f u l

/-- `track(target, key)`: if an effect is active and not yet in the dep set,
add it to the set and record the set in the effect's own `deps`. -/
def track (s : TrackerState) (t : Target) (k : PKey) : TrackerState :=
  match getActiveEffect s with
  | none => s
  | some e =>
      if e ∈ s.targetMap t k then s
      else
        { s with
          targetMap := updDep s.targetMap t k (addUnique (s.targetMap t k) e),
          effDeps := Function.update s.effDeps e (addUnique (s.effDeps e) (t, k)) }

/-- `cleanup(effect)`: remove the effect from every dep set it joined and clear
its own `deps` list. -/
def cleanup (s : TrackerState) (e : EffectId) : TrackerState :=
  { s with
    targetMap := fun t k =>
      if (t, k) ∈ s.effDeps e then (s.targetMap t k).erase e else s.targetMap t k,
    effDeps := Function.update s.effDeps e [] }

/-- The `effectsToRun` set computed by `trigger(target, key)`: every effect in
the (target, key) dep set except the currently active one.  Each member is then
run directly or handed to its scheduler, so membership in this list is exactly
"re-run or rescheduled by the trigger". -/
def effectsToRun (s : TrackerState) (t : Target) (k : PKey) : List EffectId :=
  (s.targetMap t k).filter (fun e => decide (getActiveEffect s ≠ some e))

/-- One run of the effect wrapper built by `effect(fn)` in effect.ts, for a run
whose body performs the given list of reactive reads: `cleanup(effectFn)`, then
`pushEffect(effectFn)`, then the reads (each calling `track`), then
`popEffect()`. -/
def runReads (s : TrackerState) (e : EffectId) (reads : List DKey) : TrackerState :=
  popEffect (reads.foldl (fun st tk => track st tk.1 tk.2) (pushEffect (cleanup s e) e))

/-- Operations a running effect body can perform on the tracker. -/
inductive Op where
  | read (t : Target) (k : PKey)
  | write (t : Target) (k : PKey)
deriving DecidableEq, Repr

/-- One body operation: a read calls `track`; a write calls `trigger`, and we
log the `effectsToRun` selection the trigger computes (each selected effect is
run inline or handed to its scheduler by the source). -/
def runOp (acc : TrackerState × List EffectId) (op : Op) : TrackerState × List EffectId :=
  match op with
  | .read t k => (track acc.1 t k, acc.2)
  | .write t k => (acc.1, acc.2 ++ effectsToRun acc.1 t k)

/-- A full run of effect `e` with a body of reads and writes, logging every
effect selected by the triggers the body fires. -/
def runEffectOps (s : TrackerState) (e : EffectId) (ops : List Op) :
    TrackerState × List EffectId :=
  let s1 := pushEffect (cleanup s e) e
  let r := ops.foldl runOp (s1, [])
  (popEffect r.1, r.2)

/-- `trigger(target, key)` with the selected effects actually executed: the
dep set is first copied into `effectsToRun`, then each member is run (its body
modelled as a list of reads).  Returns the final state and the invocation
order. -/
def triggerRun (s : TrackerState) (t : Target) (k : PKey)
    (bodies : EffectId → List DKey) : TrackerState × List EffectId :=
  let snap := effectsToRun s t k
  (snap.foldl (fun st e => runReads st e (bodies e)) s, snap)

/-- Well-formedness: every dep-set membership is mirrored in the effect's own
`deps` list (maintained by `track`/`cleanup`). -/
def WF (s : TrackerState) : Prop :=
  ∀ e t k, e ∈ s.targetMap t k → (t, k) ∈ s.effDeps e

/-- Dep sets are JS `Set`s: duplicate free. -/
def ND (s : TrackerState) : Prop :=
  ∀ t k, (s.targetMap t k).Nodup

/-- The empty tracker state. -/
def initTracker : TrackerState :=
  { targetMap := fun _ _ => [], effDeps := fun _ => [], effectStack := [] }

/-! ## Computed refs (packages/core/src/effect.ts, ComputedRefImpl) -/

/-- State of `X = computed(() => f(a.value))` over a single ref `a` (RefImpl)
with numeric payload: the ref's `_rawValue`, the computed's cached `_value` and
`_dirty` flag, whether the computed's lazy inner effect is currently in the dep
set of `(a, 'value')`, and how many times the getter has been invoked. -/
structure CompState where
  aRaw : Nat
  cValue : Nat
  cDirty : Bool
  innerSubscribed : Bool
  getterCount : Nat
deriving DecidableEq, Repr

/-- A freshly constructed computed: `_dirty = true`; the inner effect is lazy,
has never run, and so is subscribed to nothing (`cValue` stands for the
uninitialised `_value!`). -/
def initComp (a0 : Nat) : CompState :=
  { aRaw := a0, cValue := 0, cDirty := true, innerSubscribed := false,
    getterCount := 0 }

/-- `get value()` of ComputedRefImpl, read outside any effect: if `_dirty`,
run the inner effect (its wrapper cleans up stale edges, then the getter reads
`a.value`, re-subscribing the inner effect and bumping the invocation count),
cache the result, and clear the flag; otherwise return the cache untouched. -/
def readValue (f : Nat → Nat) (s : CompState) : CompState :=
  if s.cDirty then
    { s with cValue := f s.aRaw, getterCount := s.getterCount + 1,
             innerSubscribed := true, cDirty := false }
  else s

/-- `set value(v)` of RefImpl for `a`: an `Object.is`-equal value does not
trigger.  Otherwise store the raw value and `trigger(a, 'value')`; if the
computed's inner effect is subscribed, trigger hands it to its scheduler,
which on a clean-to-dirty transition sets `_dirty` (and would re-trigger the
computed's own dependents, of which there are none here) — the getter itself
is never invoked by the mutation. -/
def setValue (s : CompState) (v : Nat) : CompState :=
  if v = s.aRaw then s
  else
    let s1 := { s with aRaw := v }
    if s1.innerSubscribed then
      if s1.cDirty then s1 else { s1 with cDirty := true }
    else s1

/-! ## Reactive identity caches and markRaw (packages/core/src/ref.js) -/

abbrev Obj := Nat

/-- Module state of the reactive proxy cache: `reactiveMap` (target to proxy)
and `rawMap` (proxy to target), the `__b_isReactive` own property written by
`markRaw` (only ever with the value `false`), and an allocator providing the
identity of the next `new Proxy(..)`. -/
structure ReactState where
  reactiveMap : Obj → Option Obj
  rawMap : Obj → Option Obj
  rawFlag : Obj → Option Bool
  nextObj : Obj

/-- Fresh module state in a world with plain objects `0, ..., n - 1`:
no proxies yet, no raw marks. -/
def initReact (n : Nat) : ReactState :=
  { reactiveMap := fun _ => none, rawMap := fun _ => none,
    rawFlag := fun _ => none, nextObj := n }

/-- Reading `x[ReactiveFlags.IS_REACTIVE]`: a proxy's `get` trap answers
`true`; a plain object reports its own property — `false` after `markRaw`,
`undefined` (falsy) when absent. -/
def readIsReactive (s : ReactState) (x : Obj) : Bool :=
  if (s.rawMap x).isSome then true else (s.rawFlag x).getD false

/-- `markRaw(value)`: `Object.defineProperty` of `__b_isReactive` with the
value `false` on the object itself. -/
def markRaw (s : ReactState) (x : Obj) : ReactState :=
  { s with rawFlag := Function.update s.rawFlag x (some false) }

/-- `reactive(target)`: return the cached proxy if one exists; if the
`__b_isReactive` read on the target is truthy, return the target itself;
otherwise allocate a new proxy and record it in both identity caches. -/
def reactive (s : ReactState) (x : Obj) : ReactState × Obj :=
  match s.reactiveMap x with
  | some p => (s, p)
  | none =>
      if readIsReactive s x then (s, x)
      else
        let p := s.nextObj
        ({ s with
            reactiveMap := Function.update s.reactiveMap x (some p),
            rawMap := Function.update s.rawMap p (some x),
            nextObj := p + 1 }, p)

/-! ## Proxy traps over the tracker (packages/core/src/ref.js, handler) -/

/-- Proxied object stores, the tracker, and the counter identifying the next
`Symbol(..)` allocation. -/
structure PState where
  tr : TrackerState
  store : Target → String → Option Nat
  symCounter : Nat

/-- Pointwise update of a store at one (target, string key). -/
def updStore (f : Target → String → Option Nat) (t : Target) (k : String)
    (v : Option Nat) : Target → String → Option Nat :=
  fun u l => if u = t ∧ l = k then v else f u l

/-- The `get` trap: `track(target, key)` (the value lookup and the nested
wrapping of object-valued results are irrelevant for numeric payloads). -/
def getTrap (s : PState) (t : Target) (k : String) : PState :=
  { s with tr := track s.tr t (PKey.str k) }

/-- The `has` trap: `track(target, key)` then `Reflect.has`. -/
def hasTrap (s : PState) (t : Target) (k : String) : PState :=
  { s with tr := track s.tr t (PKey.str k) }

/-- The `ownKeys` trap: `track(target, Symbol('iterate'))`.  The source
allocates a fresh, never-again-reproducible symbol on every call. -/
def ownKeysTrap (s : PState) (t : Target) : PState :=
  { s with tr := track s.tr t (PKey.sym s.symCounter),
           symCounter := s.symCounter + 1 }

/-- The `set` trap: store the value and, when it differs from the old one
(`Object.is`), `trigger(target, key)`; the selected effects (each run inline
or handed to its scheduler) are returned. -/
def setTrap (s : PState) (t : Target) (k : String) (v : Nat) :
    PState × List EffectId :=
  let old := s.store t k
  let s1 := { s with store := updStore s.store t k (some v) }
  if old = some v then (s1, []) else (s1, effectsToRun s1.tr t (PKey.str k))

/-- The `deleteProperty` trap: delete the key and, if it existed,
`trigger(target, key)`. -/
def deleteTrap (s : PState) (t : Target) (k : String) : PState × List EffectId :=
  let had := (s.store t k).isSome
  let s1 := { s with store := updStore s.store t k none }
  if had then (s1, effectsToRun s1.tr t (PKey.str k)) else (s1, [])

/-- Read-side operations an effect body can perform on reactive proxies. -/
inductive PROp where
  | get (t : Target) (k : String)
  | has (t : Target) (k : String)
  | ownKeys (t : Target)

def runPROp (s : PState) (op : PROp) : PState :=
  match op with
  | .get t k => getTrap s t k
  | .has t k => hasTrap s t k
  | .ownKeys t => ownKeysTrap s t

/-- A run of effect `e` whose body performs reads, `in`-checks and
enumerations on reactive proxies: the wrapper built by `effect` does
`cleanup`, push, body, pop. -/
def runProxyEffect (s : PState) (e : EffectId) (ops : List PROp) : PState :=
  let s1 := { s with tr := pushEffect (cleanup s.tr e) e }
  let s2 := ops.foldl runPROp s1
  { s2 with tr := popEffect s2.tr }

/-! ## Job queue (packages/core/src/effect.ts, queueJob and flushJobs) -/

structure QueueState where
  pending : List Nat
  isFlushing : Bool
deriving DecidableEq, Repr

/-- `queueJob(job)`: `pendingJobs.add(job)` — appended iff absent, since
`pendingJobs` is a `Set` (modelled as an insertion-ordered duplicate-free
list); on the first insertion since the last flush the `isFlushing` flag is
set and a microtask running `flushJobs` is scheduled. -/
def queueJob (s : QueueState) (j : Nat) : QueueState :=
  { pending := addUnique s.pending j, isFlushing := true }

/-- The `pendingJobs.forEach(job => job())` loop of `flushJobs` at position
`i`.  Per JS `Set.prototype.forEach`, entries appended during the iteration
are visited too, and re-adding a present entry does not move it.  Job `j` is
modelled as calling `queueJob` on every element of `spec j`.  Returns the
final grown set and the invocation log; `fuel` bounds the recursion depth. -/
def flushLoop (spec : Nat → List Nat) : Nat → Nat → List Nat → List Nat × List Nat
  | 0, _, pending => (pending, [])
  | fuel + 1, i, pending =>
      match pending[i]? with
      | some j =>
          let pending1 := (spec j).foldl addUnique pending
          let r := flushLoop spec fuel (i + 1) pending1
          (r.1, j :: r.2)
      | none => (pending, [])

/-- `flushJobs()`: iterate the pending set once, invoking each job, then clear
the set and reset the scheduling flag. -/
def flushJobs (spec : Nat → List Nat) (fuel : Nat) (s : QueueState) :
    QueueState × List Nat :=
  let r := flushLoop spec fuel 0 s.pending
  ({ pending := [], isFlushing := false }, r.2)

/-- A tracker with effect 0 subscribed at (0, "value") and no effect running. -/
def demoTracker : TrackerState :=
  { targetMap := fun t k => if t = 0 ∧ k = PKey.str "value" then [0] else [],
    effDeps := fun e => if e = 0 then [(0, PKey.str "value")] else [],
    effectStack := [] }

/-- A world with one reactive object (target 0) holding the single key "b". -/
def demoPState : PState :=
  { tr := initTracker,
    store := fun t k => if t = 0 ∧ k = "b" then some 1 else none,
    symCounter := 0 }

/-- The job behaviour used against claim C6: job 0 queues job 1; every other
job queues nothing. -/
def specC6 : Nat → List Nat := fun j => if j = 0 then [1] else []

/-! ## Renderer: keyed and unkeyed child reconciliation (patchChildren) -/

/-- A vnode child as reconciled by `patchChildren` on its all-vnode path:
node type, optional identity key, and the realized output reference `el`
(populated at mount). -/
structure MVNode where
  vtype : Nat
  key : Option Nat
  el : Option Nat
deriving DecidableEq, Repr

/-- Renderer events observable during a patch, in order. -/
inductive REvent where
  | mounted (el : Nat)
  | patched (el : Option Nat)
  | unmounted (el : Option Nat)
deriving DecidableEq, Repr

/-- Renderer bookkeeping: the identity of the next created output node and the
event log. -/
structure RState where
  nextEl : Nat
  log : List REvent
deriving DecidableEq, Repr

/-- `mount(child, ...)`: create a fresh output node and store it on the
vnode. -/
def mountChild (st : RState) (c : MVNode) : RState × MVNode :=
  ({ nextEl := st.nextEl + 1, log := st.log ++ [REvent.mounted st.nextEl] },
   { c with el := some st.nextEl })

/-- `unmount(vnode)` at child-list granularity: tears down the child and its
realized output. -/
def unmountChild (st : RState) (c : MVNode) : RState :=
  { st with log := st.log ++ [REvent.unmounted c.el] }

/-- `patch(oldVNode, newVNode, ...)`: differing types mean unconditional
unmount-old plus mount-new; otherwise `newVNode.el = oldVNode.el` and the node
is patched in place. -/
def patchPair (st : RState) (o c : MVNode) : RState × MVNode :=
  if o.vtype = c.vtype then
    ({ st with log := st.log ++ [REvent.patched o.el] }, { c with el := o.el })
  else
    mountChild (unmountChild st o) c

/-- JS `Map.get`: the value at the first (and, as maintained, only) entry
with the key. -/
def mapGet (m : List (Nat × MVNode)) (k : Nat) : Option MVNode :=
  match m with
  | [] => none
  | p :: rest => if p.1 = k then some p.2 else mapGet rest k

/-- JS `Map.set`: replace in place when the key exists, else append. -/
def mapSet (m : List (Nat × MVNode)) (k : Nat) (v : MVNode) :
    List (Nat × MVNode) :=
  if (mapGet m k).isSome then m.map (fun p => if p.1 = k then (k, v) else p)
  else m ++ [(k, v)]

/-- JS `Map.delete`: removes the entry, preserving the order of the rest. -/
def mapDel (m : List (Nat × MVNode)) (k : Nat) : List (Nat × MVNode) :=
  m.filter (fun p => decide (p.1 ≠ k))

/-- One step of building the `oldKeyed` map: keyed children are inserted,
unkeyed ones skipped. -/
def keyedStep (m : List (Nat × MVNode)) (c : MVNode) : List (Nat × MVNode) :=
  match c.key with
  | some k => mapSet m k c
  | none => m

/-- The `oldKeyed` map: old children carrying an explicit key, in order. -/
def buildKeyed (old : List MVNode) : List (Nat × MVNode) :=
  old.foldl keyedStep []

/-- The `newChildren.forEach` loop of `patchChildren`: each new child is
matched by key when it has one (a hit is deleted from the keyed pool), or
consumes the next old unkeyed child positionally (`unkeyedIndex` increments
regardless, exactly as `oldUnkeyed[unkeyedIndex++]`); unmatched new children
are freshly mounted.  Returns the renderer state, the reconciled children, the
remaining keyed pool, and the final `unkeyedIndex`. -/
def patchNewChildren (oldUnkeyed : List MVNode) :
    RState → List (Nat × MVNode) → Nat → List MVNode →
    RState × List MVNode × List (Nat × MVNode) × Nat
  | st, keyed, ui, [] => (st, [], keyed, ui)
  | st, keyed, ui, c :: rest =>
      match c.key with
      | some k =>
          match mapGet keyed k with
          | some oldc =>
              let pr := patchPair st oldc c
              let r := patchNewChildren oldUnkeyed pr.1 (mapDel keyed k) ui rest
              (r.1, pr.2 :: r.2.1, r.2.2)
          | none =>
              let pr := mountChild st c
              let r := patchNewChildren oldUnkeyed pr.1 keyed ui rest
              (r.1, pr.2 :: r.2.1, r.2.2)
      | none =>
          match oldUnkeyed[ui]? with
          | some oldc =>
              let pr := patchPair st oldc c
              let r := patchNewChildren oldUnkeyed pr.1 keyed (ui + 1) rest
              (r.1, pr.2 :: r.2.1, r.2.2)
          | none =>
              let pr := mountChild st c
              let r := patchNewChildren oldUnkeyed pr.1 keyed (ui + 1) rest
              (r.1, pr.2 :: r.2.1, r.2.2)

/-- `patchChildren` on the all-vnode path: partition old children into the
keyed pool and the positional list, run the forEach over the new children,
then unmount the leftover keyed vnodes (in pool order) and the remaining old
unkeyed children from `unkeyedIndex` on. -/
def patchChildren (st : RState) (old new : List MVNode) : RState × List MVNode :=
  let oldUnkeyed := old.filter (fun c => c.key.isNone)
  let r := patchNewChildren oldUnkeyed st (buildKeyed old) 0 new
  let st1 := r.2.2.1.foldl (fun s p => unmountChild s p.2) r.1
  let st2 := (oldUnkeyed.drop r.2.2.2).foldl unmountChild st1
  (st2, r.2.1)

/-- The el that keyed matching assigns to a new child: the el of its match in
the keyed pool. -/
def elForM (m : List (Nat × MVNode)) (c : MVNode) : Option Nat :=
  match c.key with
  | some k =>
      match mapGet m k with
      | some o => o.el
      | none => none
  | none => none

/-- The realized output of the old child carrying the same key as `c`. -/
def oldElFor (old : List MVNode) (c : MVNode) : Option Nat :=
  match old.find? (fun o => decide (o.key = c.key)) with
  | some o => o.el
  | none => none

/-- Recognizes unmount events. -/
def isUnmount : REvent → Bool
  | .unmounted _ => true
  | _ => false

/-- Recognizes mount events. -/
def isMount : REvent → Bool
  | .mounted _ => true
  | _ => false

/-- Demo children for the spec's keyed example: keys a, b, c (as 10, 11, 12)
mounted with realized outputs 100, 101, 102. -/
def wOldKeyed : List MVNode :=
  [⟨1, some 10, some 100⟩, ⟨1, some 11, some 101⟩, ⟨1, some 12, some 102⟩]

/-- The same keys patched in the order c, a, b. -/
def wNewKeyed : List MVNode :=
  [⟨1, some 12, none⟩, ⟨1, some 10, none⟩, ⟨1, some 11, none⟩]

/-- Demo unkeyed children: two mounted positional children. -/
def wOldPos : List MVNode :=
  [⟨5, none, some 100⟩, ⟨6, none, some 101⟩]

/-- The unkeyed list patched down to one child. -/
def wNewPos : List MVNode :=
  [⟨5, none, none⟩]

/-! ## Renderer: unmount -/

/-- The mounted tree as seen by `unmount`: elements and fragments with
children, or a component-typed vnode with its instance's registered unmount
callbacks, rendered subtree, and update-effect handle. -/
inductive MTree where
  | elem (el : Nat) (children : List MTree)
  | frag (anchor : Nat) (children : List MTree)
  | comp (callbacks : List Nat) (sub : Option MTree) (upd : Option Nat)

/-- Teardown events in the order `unmount` performs them. -/
inductive UEvent where
  | callback (id : Nat)
  | removeNode (n : Nat)
  | teardown (eff : Nat)
deriving DecidableEq, Repr

/-- `invokeLifecycleHooks(hooks)` (the lifecycle.js build chunk in
packages/runtime/dist): `hooks.forEach(hook => ...)` invokes each registered
callback in order, each inside its own try/catch so that a throwing callback
cannot stop the later ones — hence every callback is invoked. -/
def invokeLifecycleHooks (cbs : List Nat) : List UEvent :=
  cbs.map UEvent.callback

mutual

/-- `unmount(vnode)`, accumulating the event trace: a component-typed vnode
first invokes all its unmount callbacks, then unmounts its subtree if any,
then `cleanup`s its update effect; fragments and elements unmount their
children first and then remove their anchor / element node. -/
def unmountRun : MTree → List UEvent → List UEvent
  | .comp cbs sub upd, acc =>
      let acc1 := acc ++ invokeLifecycleHooks cbs
      let acc2 := match sub with
        | some t => unmountRun t acc1
        | none => acc1
      match upd with
      | some u => acc2 ++ [UEvent.teardown u]
      | none => acc2
  | .frag a cs, acc => unmountRunList cs acc ++ [UEvent.removeNode a]
  | .elem el cs, acc => unmountRunList cs acc ++ [UEvent.removeNode el]

/-- `children.forEach(child => unmount(child))`. -/
def unmountRunList : List MTree → List UEvent → List UEvent
  | [], acc => acc
  | c :: rest, acc => unmountRunList rest (unmountRun c acc)

end

/-! ## createApp -/

/-- Closure state of `createApp`: the `isMounted` flag, the resolved
container, how many times `render(rootVNode, container)` has run, and the
identity of the committed root vnode stored on the container. -/
structure AppState where
  isMounted : Bool
  container : Option Nat
  renderCount : Nat
  committed : Option Nat
deriving DecidableEq, Repr

/-- The state right after `createApp(rootComponent)` returns. -/
def initApp : AppState :=
  { isMounted := false, container := none, renderCount := 0, committed := none }

/-- `app.mount(selector)`: resolve the target (assigning the closure's
`container` first); throw a descriptive error when it cannot be found;
otherwise, when not yet mounted, create a fresh root vnode, render it and set
the flag — and do nothing more on later calls.  Returns the new closure state
and the thrown message, if any. -/
def mountApp (s : AppState) (selector : String) (resolved : Option Nat) :
    AppState × Option String :=
  match resolved with
  | none =>
      ({ s with container := none },
       some ("Mount target " ++ selector ++ " not found"))
  | some c =>
      let s1 := { s with container := some c }
      if s1.isMounted then (s1, none)
      else
        ({ s1 with isMounted := true, renderCount := s1.renderCount + 1,
                   committed := some s1.renderCount }, none)

/-! ### Helper lemmas about the tracker -/

lemma mem_addUnique {α : Type} [DecidableEq α] (xs : List α) (x y : α) :
    y ∈ addUnique xs x ↔ y ∈ xs ∨ y = x := by
  unfold addUnique
  split
  · rename_i h
    constructor
    · exact Or.inl
    · rintro (h1 | rfl)
      · exact h1
      · exact h
  · simp [List.mem_append]

lemma addUnique_nodup {α : Type} [DecidableEq α] {xs : List α} (h : xs.Nodup) (x : α) :
    (addUnique xs x).Nodup := by
  unfold addUnique
  split
  · exact h
  · rename_i hx
    simpa [List.nodup_append] using ⟨h, fun h1 => hx h1⟩

lemma track_effectStack (s : TrackerState) (t : Target) (k : PKey) :
    (track s t k).effectStack = s.effectStack := by
  unfold track
  cases getActiveEffect s with
  | none => rfl
  | some e => dsimp only; split <;> rfl

lemma track_active (s : TrackerState) (t : Target) (k : PKey) :
    getActiveEffect (track s t k) = getActiveEffect s := by
  unfold getActiveEffect
  rw [track_effectStack]

lemma cleanup_not_mem {s : TrackerState} {e : EffectId} (hwf : WF s) (hnd : ND s)
    (t : Target) (k : PKey) : e ∉ (cleanup s e).targetMap t k := by
  show e ∉ (if (t, k) ∈ s.effDeps e then (s.targetMap t k).erase e else s.targetMap t k)
  split
  · intro hmem
    exact absurd ((List.Nodup.mem_erase_iff (hnd t k)).mp hmem).1 (by simp)
  · rename_i hdep
    intro hmem
    exact hdep (hwf e t k hmem)

lemma cleanup_effDeps_self (s : TrackerState) (e : EffectId) :
    (cleanup s e).effDeps e = [] := by
  show Function.update s.effDeps e [] e = []
  simp

lemma updDep_self (f : Target → PKey → List EffectId) (t : Target) (k : PKey)
    (v : List EffectId) : updDep f t k v t k = v := by
  simp [updDep]

lemma updDep_ne (f : Target → PKey → List EffectId) (t : Target) (k : PKey)
    (v : List EffectId) (u : Target) (l : PKey) (h : ¬(u = t ∧ l = k)) :
    updDep f t k v u l = f u l := by
  simp [updDep, h]

/-- One `track` step during a run of effect `e` whose prior subscriptions are
exactly `acc`: afterwards they are exactly `acc` plus the tracked key. -/
lemma track_step (st : TrackerState) (e : EffectId) (t0 : Target) (k0 : PKey)
    (acc : List DKey) (hact : getActiveEffect st = some e)
    (hmap : ∀ t k, e ∈ st.targetMap t k ↔ (t, k) ∈ acc)
    (hdeps : ∀ tk, tk ∈ st.effDeps e ↔ tk ∈ acc) :
    (∀ t k, e ∈ (track st t0 k0).targetMap t k ↔ (t, k) ∈ acc ++ [(t0, k0)]) ∧
    (∀ tk, tk ∈ (track st t0 k0).effDeps e ↔ tk ∈ acc ++ [(t0, k0)]) := by
  unfold track
  rw [hact]
  dsimp only
  by_cases hin : e ∈ st.targetMap t0 k0
  · rw [if_pos hin]
    have hmem0 : (t0, k0) ∈ acc := (hmap t0 k0).mp hin
    constructor
    · intro t k
      rw [hmap t k]
      simp only [List.mem_append, List.mem_singleton]
      constructor
      · exact Or.inl
      · rintro (h2 | h2)
        · exact h2
        · rw [Prod.mk.injEq] at h2
          rw [h2.1, h2.2]
          exact hmem0
    · intro tk
      rw [hdeps tk]
      simp only [List.mem_append, List.mem_singleton]
      constructor
      · exact Or.inl
      · rintro (h2 | rfl)
        · exact h2
        · exact hmem0
  · rw [if_neg hin]
    constructor
    · intro t k
      show e ∈ updDep st.targetMap t0 k0 (addUnique (st.targetMap t0 k0) e) t k ↔ _
      by_cases htk : t = t0 ∧ k = k0
      · obtain ⟨rfl, rfl⟩ := htk
        rw [updDep_self]
        simp only [List.mem_append, List.mem_singleton]
        constructor
        · intro _
          exact Or.inr trivial
        · intro _
          rw [mem_addUnique]
          exact Or.inr rfl
      · rw [updDep_ne _ _ _ _ _ _ htk]
        rw [hmap t k]
        simp only [List.mem_append, List.mem_singleton]
        constructor
        · exact Or.inl
        · rintro (h2 | h2)
          · exact h2
          · rw [Prod.mk.injEq] at h2
            exact absurd h2 htk
    · intro tk
      show tk ∈ Function.update st.effDeps e (addUnique (st.effDeps e) (t0, k0)) e ↔ _
      rw [Function.update_same, mem_addUnique, hdeps tk]
      simp [List.mem_append]

/-- Core lemma for dependency soundness: folding `track` over the reads of a
run whose active effect is `e` leaves `e` subscribed exactly at the keys
already accumulated plus the keys read. -/
lemma trackFold_spec (e : EffectId) :
    ∀ (reads : List DKey) (st : TrackerState) (acc : List DKey),
      getActiveEffect st = some e →
      (∀ t k, e ∈ st.targetMap t k ↔ (t, k) ∈ acc) →
      (∀ tk, tk ∈ st.effDeps e ↔ tk ∈ acc) →
      getActiveEffect (reads.foldl (fun s tk => track s tk.1 tk.2) st) = some e ∧
      (∀ t k, e ∈ (reads.foldl (fun s tk => track s tk.1 tk.2) st).targetMap t k ↔
        (t, k) ∈ acc ++ reads) ∧
      (∀ tk, tk ∈ (reads.foldl (fun s tk => track s tk.1 tk.2) st).effDeps e ↔
        tk ∈ acc ++ reads) := by
  intro reads
  induction reads with
  | nil =>
      intro st acc hact hmap hdeps
      refine ⟨hact, ?_, ?_⟩
      · intro t k
        rw [List.append_nil]
        exact hmap t k
      · intro tk
        rw [List.append_nil]
        exact hdeps tk
  | cons hd rest ih =>
      intro st acc hact hmap hdeps
      obtain ⟨t0, k0⟩ := hd
      have hact1 : getActiveEffect (track st t0 k0) = some e := by
        rw [track_active]; exact hact
      have hstep := track_step st e t0 k0 acc hact hmap hdeps
      have hrec := ih (track st t0 k0) (acc ++ [(t0, k0)]) hact1 hstep.1 hstep.2
      refine ⟨hrec.1, ?_, ?_⟩
      · intro t k
        rw [List.foldl_cons]
        rw [hrec.2.1 t k]
        rw [List.append_assoc, List.singleton_append]
      · intro tk
        rw [List.foldl_cons]
        rw [hrec.2.2 tk]
        rw [List.append_assoc, List.singleton_append]

lemma runReads_targetMap (s : TrackerState) (e : EffectId) (reads : List DKey)
    (hwf : WF s) (hnd : ND s) :
    (∀ t k, e ∈ (runReads s e reads).targetMap t k ↔ (t, k) ∈ reads) ∧
    (∀ tk, tk ∈ (runReads s e reads).effDeps e ↔ tk ∈ reads) := by
  have h := trackFold_spec e reads (pushEffect (cleanup s e) e) [] rfl
    (fun t k => by
      simp only [List.not_mem_nil, iff_false]
      exact cleanup_not_mem hwf hnd t k)
    (fun tk => by
      show tk ∈ (cleanup s e).effDeps e ↔ _
      rw [cleanup_effDeps_self])
  constructor
  · intro t k
    have := h.2.1 t k
    simpa using this
  · intro tk
    have := h.2.2 tk
    simpa using this

lemma runOp_effectStack (acc : TrackerState × List EffectId) (op : Op) :
    (runOp acc op).1.effectStack = acc.1.effectStack := by
  cases op with
  | read t k => exact track_effectStack acc.1 t k
  | write t k => rfl

lemma foldl_runOp_inv (e : EffectId) :
    ∀ (ops : List Op) (acc : TrackerState × List EffectId),
      getActiveEffect acc.1 = some e → e ∉ acc.2 →
      getActiveEffect (ops.foldl runOp acc).1 = some e ∧
      e ∉ (ops.foldl runOp acc).2 := by
  intro ops
  induction ops with
  | nil => intro acc h1 h2; exact ⟨h1, h2⟩
  | cons op rest ih =>
      intro acc h1 h2
      rw [List.foldl_cons]
      refine ih (runOp acc op) ?_ ?_
      · show (runOp acc op).1.effectStack.head? = some e
        rw [runOp_effectStack]
        exact h1
      · cases op with
        | read t k => exact h2
        | write t k =>
            show e ∉ acc.2 ++ effectsToRun acc.1 t k
            intro hmem
            rcases List.mem_append.mp hmem with h | h
            · exact h2 h
            · have hne := of_decide_eq_true (List.mem_filter.mp h).2
              exact hne h1

lemma track_self_mem {st : TrackerState} {e : EffectId}
    (hact : getActiveEffect st = some e) (t : Target) (k : PKey) :
    e ∈ (track st t k).targetMap t k := by
  unfold track
  rw [hact]
  dsimp only
  split
  · assumption
  · show e ∈ updDep st.targetMap t k (addUnique (st.targetMap t k) e) t k
    rw [updDep_self, mem_addUnique]
    exact Or.inr rfl

lemma track_mem_preserve {st : TrackerState} {e : EffectId} {u : Target} {l : PKey}
    (h : e ∈ st.targetMap u l) (t : Target) (k : PKey) :
    e ∈ (track st t k).targetMap u l := by
  unfold track
  cases getActiveEffect st with
  | none => exact h
  | some e2 =>
      dsimp only
      split
      · exact h
      · show e ∈ updDep st.targetMap t k (addUnique (st.targetMap t k) e2) u l
        by_cases htk : u = t ∧ l = k
        · obtain ⟨rfl, rfl⟩ := htk
          rw [updDep_self, mem_addUnique]
          exact Or.inl h
        · rw [updDep_ne _ _ _ _ _ _ htk]
          exact h

lemma cleanup_mem_preserve {st : TrackerState} {e e2 : EffectId} (hne : e ≠ e2)
    {u : Target} {l : PKey} (h : e ∈ st.targetMap u l) :
    e ∈ (cleanup st e2).targetMap u l := by
  show e ∈ (if (u, l) ∈ st.effDeps e2 then (st.targetMap u l).erase e2
            else st.targetMap u l)
  split
  · exact (List.mem_erase_of_ne hne).mpr h
  · exact h

lemma trackFold_mem_preserve (e : EffectId) {u : Target} {l : PKey} :
    ∀ (reads : List DKey) (st : TrackerState), e ∈ st.targetMap u l →
      e ∈ (reads.foldl (fun s tk => track s tk.1 tk.2) st).targetMap u l := by
  intro reads
  induction reads with
  | nil => intro st h; exact h
  | cons hd rest ih =>
      intro st h
      rw [List.foldl_cons]
      exact ih _ (track_mem_preserve h hd.1 hd.2)

lemma trackFold_self_mem (e : EffectId) {u : Target} {l : PKey} :
    ∀ (reads : List DKey) (st : TrackerState), getActiveEffect st = some e →
      ((u, l) ∈ reads ∨ e ∈ st.targetMap u l) →
      e ∈ (reads.foldl (fun s tk => track s tk.1 tk.2) st).targetMap u l := by
  intro reads
  induction reads with
  | nil =>
      intro st _ h
      rcases h with h | h
      · exact absurd h (List.not_mem_nil _)
      · exact h
  | cons hd rest ih =>
      intro st hact h
      rw [List.foldl_cons]
      refine ih (track st hd.1 hd.2) (by rw [track_active]; exact hact) ?_
      rcases h with h | h
      · rcases List.mem_cons.mp h with h2 | h2
        · refine Or.inr ?_
          have : hd = (u, l) := h2.symm
          rw [this] at *
          exact track_self_mem hact u l
        · exact Or.inl h2
      · exact Or.inr (track_mem_preserve h hd.1 hd.2)

lemma runReads_self_mem (st : TrackerState) (e : EffectId) (reads : List DKey)
    {u : Target} {l : PKey} (h : (u, l) ∈ reads) :
    e ∈ (runReads st e reads).targetMap u l := by
  unfold runReads
  show e ∈ (reads.foldl (fun s2 tk => track s2 tk.1 tk.2)
    (pushEffect (cleanup st e) e)).targetMap u l
  exact trackFold_self_mem e reads (pushEffect (cleanup st e) e) rfl (Or.inl h)

lemma runReads_mem_preserve {st : TrackerState} {e e2 : EffectId} (hne : e ≠ e2)
    {u : Target} {l : PKey} (h : e ∈ st.targetMap u l) (reads : List DKey) :
    e ∈ (runReads st e2 reads).targetMap u l := by
  unfold runReads
  show e ∈ (reads.foldl (fun s2 tk => track s2 tk.1 tk.2)
    (pushEffect (cleanup st e2) e2)).targetMap u l
  exact trackFold_mem_preserve e reads _ (cleanup_mem_preserve hne h)

lemma runReadsFold_mem (e : EffectId) (u : Target) (l : PKey)
    (bodies : EffectId → List DKey) :
    ∀ (snap : List EffectId) (st : TrackerState),
      ((e ∈ st.targetMap u l ∧ e ∉ snap) ∨ (e ∈ snap ∧ (u, l) ∈ bodies e)) →
      e ∈ (snap.foldl (fun st2 e2 => runReads st2 e2 (bodies e2)) st).targetMap u l := by
  intro snap
  induction snap with
  | nil =>
      intro st h
      rcases h with ⟨h1, _⟩ | ⟨h1, _⟩
      · exact h1
      · exact absurd h1 (List.not_mem_nil _)
  | cons e0 rest ih =>
      intro st h
      rw [List.foldl_cons]
      rcases h with ⟨h1, h2⟩ | ⟨h1, h2⟩
      · have hne : e ≠ e0 := fun he => h2 (he ▸ List.mem_cons_self e0 rest)
        have hnr : e ∉ rest := fun hr => h2 (List.mem_cons_of_mem e0 hr)
        exact ih _ (Or.inl ⟨runReads_mem_preserve hne h1 (bodies e0), hnr⟩)
      · by_cases hr : e ∈ rest
        · exact ih _ (Or.inr ⟨hr, h2⟩)
        · have he : e = e0 := by
            rcases List.mem_cons.mp h1 with h3 | h3
            · exact h3
            · exact absurd h3 hr
          subst he
          exact ih _ (Or.inl ⟨runReads_self_mem st e (bodies e) h2, hr⟩)

/-! ## Claim theorems -/

/-- Claim C1 (dependency soundness): after a run of effect `e` whose body read
exactly the keys in `reads`, the dependency sets contain `e` exactly at those
keys and `e`'s own recorded dep list is exactly `reads` (stale edges from any
earlier run are purged by the cleanup-before-rerun discipline); consequently a
later `trigger` on (t, k) re-runs or reschedules `e` iff the most recent run
read (t, k). -/
theorem dependency_soundness (s : TrackerState) (e : EffectId) (reads : List DKey)
    (hwf : WF s) (hnd : ND s) :
    (∀ t k, e ∈ (runReads s e reads).targetMap t k ↔ (t, k) ∈ reads) ∧
    (∀ tk, tk ∈ (runReads s e reads).effDeps e ↔ tk ∈ reads) ∧
    (∀ t k, getActiveEffect (runReads s e reads) ≠ some e →
      (e ∈ effectsToRun (runReads s e reads) t k ↔ (t, k) ∈ reads)) := by
  have h := runReads_targetMap s e reads hwf hnd
  refine ⟨h.1, h.2, ?_⟩
  intro t k hact
  unfold effectsToRun
  rw [List.mem_filter]
  constructor
  · rintro ⟨h1, _⟩
    exact (h.1 t k).mp h1
  · intro h1
    exact ⟨(h.1 t k).mpr h1, decide_eq_true hact⟩

/-- Witness for dependency_soundness: an effect whose run read
(0, "value") in the empty tracker is subscribed exactly there. -/
theorem dependency_soundness_witness :
    WF initTracker ∧ ND initTracker ∧
    (∀ t k, 0 ∈ (runReads initTracker 0 [(0, PKey.str "value")]).targetMap t k ↔
      (t, k) ∈ [((0 : Target), PKey.str "value")]) :=
  have hwf : WF initTracker := fun e _ _ h => absurd h (List.not_mem_nil e)
  have hnd : ND initTracker := fun _ _ => List.nodup_nil
  ⟨hwf, hnd, (dependency_soundness initTracker 0 [(0, PKey.str "value")] hwf hnd).1⟩

/-- Claim C2 (self-trigger suppression): `trigger(target, key)` selects — runs
inline or hands to its scheduler — exactly the effects registered in the
(target, key) dep set other than the one currently running; consequently an
effect that both reads and writes container keys during its own run is never
selected by its own writes and cannot re-enter itself synchronously. -/
theorem trigger_self_suppression (s : TrackerState) (t : Target) (k : PKey)
    (e : EffectId) (s2 : TrackerState) (e2 : EffectId) (ops : List Op) :
    (e ∈ effectsToRun s t k ↔
      (e ∈ s.targetMap t k ∧ getActiveEffect s ≠ some e)) ∧
    e2 ∉ (runEffectOps s2 e2 ops).2 := by
  constructor
  · unfold effectsToRun
    rw [List.mem_filter]
    constructor
    · rintro ⟨h1, h2⟩
      exact ⟨h1, of_decide_eq_true h2⟩
    · rintro ⟨h1, h2⟩
      exact ⟨h1, decide_eq_true h2⟩
  · show e2 ∉ (ops.foldl runOp (pushEffect (cleanup s2 e2) e2, [])).2
    exact (foldl_runOp_inv e2 ops (pushEffect (cleanup s2 e2) e2, []) rfl
      (List.not_mem_nil e2)).2

/-- Claim C10: a single `trigger(target, key)` invokes (or hands to its
scheduler) each subscribed effect at most once — the dep set is copied into
`effectsToRun` before any effect executes — even when a selected effect
re-registers itself on the same (target, key) while running during the
trigger, in which case it ends up subscribed again but was still invoked only
once by this trigger call. -/
theorem trigger_invokes_at_most_once (s : TrackerState) (t : Target) (k : PKey)
    (bodies : EffectId → List DKey) (e : EffectId) (hnd : ND s) :
    (triggerRun s t k bodies).2.count e ≤ 1 ∧
    ((t, k) ∈ bodies e → e ∈ (triggerRun s t k bodies).2 →
      e ∈ (triggerRun s t k bodies).1.targetMap t k) := by
  constructor
  · have hnodup : (effectsToRun s t k).Nodup := List.Nodup.filter _ (hnd t k)
    exact List.nodup_iff_count_le_one.mp hnodup e
  · intro hb hin
    show e ∈ ((effectsToRun s t k).foldl
      (fun st2 e2 => runReads st2 e2 (bodies e2)) s).targetMap t k
    exact runReadsFold_mem e t k bodies (effectsToRun s t k) s (Or.inr ⟨hin, hb⟩)

/-- Witness for trigger_invokes_at_most_once: effect 0 reads (0, "value")
while being triggered by it, re-registers, and is still invoked once. -/
theorem trigger_invokes_at_most_once_witness :
    ND demoTracker ∧
    ((0 : Target), PKey.str "value") ∈ [((0 : Target), PKey.str "value")] ∧
    0 ∈ (triggerRun demoTracker 0 (PKey.str "value")
      (fun _ => [(0, PKey.str "value")])).2 ∧
    (triggerRun demoTracker 0 (PKey.str "value")
      (fun _ => [(0, PKey.str "value")])).2.count 0 ≤ 1 ∧
    0 ∈ (triggerRun demoTracker 0 (PKey.str "value")
      (fun _ => [(0, PKey.str "value")])).1.targetMap 0 (PKey.str "value") := by
  have hnd : ND demoTracker := by
    intro t k
    show ((if t = 0 ∧ k = PKey.str "value" then [0] else []) : List EffectId).Nodup
    split
    · exact List.nodup_cons.mpr ⟨List.not_mem_nil 0, List.nodup_nil⟩
    · exact List.nodup_nil
  have h := trigger_invokes_at_most_once demoTracker 0 (PKey.str "value")
    (fun _ => [(0, PKey.str "value")]) 0 hnd
  have hmem : 0 ∈ (triggerRun demoTracker 0 (PKey.str "value")
      (fun _ => [(0, PKey.str "value")])).2 := by decide
  exact ⟨hnd, by decide, hmem, h.1, h.2 (by decide) hmem⟩

/-- Reading a computed always leaves it clean. -/
lemma readValue_cDirty (f : Nat → Nat) (s : CompState) :
    (readValue f s).cDirty = false := by
  unfold readValue
  split
  · rfl
  · rename_i h
    cases hc : s.cDirty with
    | false => rfl
    | true => exact absurd hc h

/-- Reading a clean computed returns the state untouched. -/
lemma readValue_clean (f : Nat → Nat) (s : CompState) (h : s.cDirty = false) :
    readValue f s = s := by
  unfold readValue
  rw [h]
  rfl

/-- Reading never changes the dependency's raw value. -/
lemma readValue_aRaw (f : Nat → Nat) (s : CompState) :
    (readValue f s).aRaw = s.aRaw := by
  unfold readValue
  split <;> rfl

/-- The invariant of reachable computed states — a clean computed has its
inner effect subscribed — holds initially and is preserved by reads and
writes. -/
lemma comp_inv_preserved (f : Nat → Nat) (s : CompState) (v a0 : Nat)
    (h : s.cDirty = false → s.innerSubscribed = true) :
    ((initComp a0).cDirty = false → (initComp a0).innerSubscribed = true) ∧
    ((readValue f s).cDirty = false → (readValue f s).innerSubscribed = true) ∧
    ((setValue s v).cDirty = false → (setValue s v).innerSubscribed = true) := by
  refine ⟨?_, ?_, ?_⟩
  · intro h2
    exact absurd h2 (by simp [initComp])
  · intro _
    unfold readValue
    split
    · rfl
    · rename_i h2
      show s.innerSubscribed = true
      apply h
      cases hc : s.cDirty with
      | false => rfl
      | true => exact absurd hc h2
  · unfold setValue
    split
    · exact h
    · dsimp only
      split
      · split
        · rename_i hsub _
          intro _
          exact hsub
        · rename_i hsub _
          intro _
          exact hsub
      · exact h

/-- Claim C3 (computed caching): reading `X.value` twice with no intervening
mutation invokes the getter only on the first read if dirty (the second read
returns the cache); mutating the dependency by itself never invokes the
getter (only the dirty flag flips, on the clean-to-dirty transition); and a
genuine mutation after a read marks the computed dirty, so the next read
invokes the getter exactly once more. -/
theorem computed_caching (f : Nat → Nat) (s : CompState) (v : Nat)
    (hs : s.cDirty = false → s.innerSubscribed = true) :
    (readValue f (readValue f s)).getterCount = (readValue f s).getterCount ∧
    (setValue s v).getterCount = s.getterCount ∧
    (s.cDirty = true → (readValue f s).getterCount = s.getterCount + 1) ∧
    (v ≠ (readValue f s).aRaw → (setValue (readValue f s) v).cDirty = true) := by
  refine ⟨?_, ?_, ?_, ?_⟩
  · rw [readValue_clean f (readValue f s) (readValue_cDirty f s)]
  · unfold setValue
    split
    · rfl
    · dsimp only
      split
      · split <;> rfl
      · rfl
  · intro h
    unfold readValue
    rw [h]
    rfl
  · intro hne
    have hsub : (readValue f s).innerSubscribed = true := by
      unfold readValue
      split
      · rfl
      · rename_i h2
        apply hs
        cases hc : s.cDirty with
        | false => rfl
        | true => exact absurd hc h2
    unfold setValue
    rw [if_neg hne]
    dsimp only
    split
    · split
      · rename_i hd
        exact hd
      · rfl
    · rename_i hsub2
      exact absurd hsub hsub2

/-- Witness for computed_caching: the fresh computed over `a = ref 0` with
getter `n + 1`, then the mutation `a.value = 5`. -/
theorem computed_caching_witness :
    ((initComp 0).cDirty = false → (initComp 0).innerSubscribed = true) ∧
    (initComp 0).cDirty = true ∧
    (5 : Nat) ≠ (readValue (fun n => n + 1) (initComp 0)).aRaw ∧
    (readValue (fun n => n + 1)
        (readValue (fun n => n + 1) (initComp 0))).getterCount =
      (readValue (fun n => n + 1) (initComp 0)).getterCount ∧
    (setValue (initComp 0) 5).getterCount = (initComp 0).getterCount ∧
    (readValue (fun n => n + 1) (initComp 0)).getterCount =
      (initComp 0).getterCount + 1 ∧
    (setValue (readValue (fun n => n + 1) (initComp 0)) 5).cDirty = true := by
  have h := computed_caching (fun n => n + 1) (initComp 0) 5 (by decide)
  exact ⟨by decide, by decide, by decide, h.1, h.2.1, h.2.2.1 (by decide),
    h.2.2.2 (by decide)⟩

/-- Claim C4 fails on the code (code bug): `markRaw` stores the own property
`__b_isReactive = false`, which is falsy, so the already-reactive guard in
`reactive` does not fire and the marked-raw object is wrapped in a fresh
proxy — which then even reports itself reactive through its `get` trap —
instead of being returned unwrapped as both the claim and `markRaw`'s own
documentation state. -/
theorem markRaw_object_still_wrapped :
    readIsReactive (markRaw (initReact 1) 0) 0 = false ∧
    (reactive (markRaw (initReact 1) 0) 0).2 ≠ 0 ∧
    (reactive (markRaw (initReact 1) 0) 0).2 = 1 ∧
    readIsReactive (reactive (markRaw (initReact 1) 0) 0).1
      (reactive (markRaw (initReact 1) 0) 0).2 = true := by
  decide

/-- Claim C9 (mount error handling and idempotence): an unresolvable target
makes `mount` throw the descriptive error, rendering nothing and leaving the
mounted state as it was; after the first successful mount, every later mount
call returns without rendering again and with the committed tree unchanged. -/
theorem mount_error_and_idempotent (s : AppState) (sel sel2 : String) (c c2 : Nat) :
    ((mountApp s sel none).2 = some ("Mount target " ++ sel ++ " not found") ∧
     (mountApp s sel none).1.isMounted = s.isMounted ∧
     (mountApp s sel none).1.renderCount = s.renderCount ∧
     (mountApp s sel none).1.committed = s.committed) ∧
    (s.isMounted = false →
      (mountApp s sel (some c)).1.isMounted = true ∧
      (mountApp s sel (some c)).1.renderCount = s.renderCount + 1 ∧
      (mountApp (mountApp s sel (some c)).1 sel2 (some c2)).2 = none ∧
      (mountApp (mountApp s sel (some c)).1 sel2 (some c2)).1.renderCount =
        (mountApp s sel (some c)).1.renderCount ∧
      (mountApp (mountApp s sel (some c)).1 sel2 (some c2)).1.committed =
        (mountApp s sel (some c)).1.committed) := by
  refine ⟨⟨rfl, rfl, rfl, rfl⟩, ?_⟩
  intro h
  simp [mountApp, h]

/-- Witness for mount_error_and_idempotent: a fresh app, a missing target,
then two mounts of target 0. -/
theorem mount_error_and_idempotent_witness :
    initApp.isMounted = false ∧
    (mountApp initApp "#app" none).2 = some "Mount target #app not found" ∧
    (mountApp initApp "#app" (some 0)).1.isMounted = true ∧
    (mountApp (mountApp initApp "#app" (some 0)).1 "#app" (some 0)).1.renderCount =
      (mountApp initApp "#app" (some 0)).1.renderCount ∧
    (mountApp (mountApp initApp "#app" (some 0)).1 "#app" (some 0)).1.committed =
      (mountApp initApp "#app" (some 0)).1.committed := by
  have h := mount_error_and_idempotent initApp "#app" "#app" 0 0
  refine ⟨rfl, ?_, (h.2 rfl).1, (h.2 rfl).2.2.2.1, (h.2 rfl).2.2.2.2⟩
  exact (h.1.1).trans (by decide)

/-- Claim C5 fails on the code (code bug): after effect 0's most recent run
enumerated the keys of reactive object 0 — the `ownKeys` trap tracked a fresh
`Symbol('iterate')` — adding the new key "a" and deleting the existing key "b"
each trigger only the property's own string key, selecting no effect at all:
the enumerating effect is neither re-run nor rescheduled, although it did get
registered under the one-shot symbol (a dead edge nothing ever triggers). -/
theorem enumeration_not_invalidated :
    (setTrap (runProxyEffect demoPState 0 [PROp.ownKeys 0]) 0 "a" 5).2 = [] ∧
    (deleteTrap (runProxyEffect demoPState 0 [PROp.ownKeys 0]) 0 "b").2 = [] ∧
    (runProxyEffect demoPState 0 [PROp.ownKeys 0]).tr.targetMap 0
      (PKey.sym 0) = [0] := by
  decide

/-- Claim C6 as stated fails on the code: with only job 0 pending when the
flush begins, job 0 queues the new job 1 during the pass, and JS
`Set.forEach` visits entries appended during iteration — so job 1 is invoked
in the same pass, not in a subsequent flush. -/
theorem flush_runs_job_queued_during_pass :
    (queueJob { pending := [], isFlushing := false } 0).pending = [0] ∧
    (flushJobs specC6 5 (queueJob { pending := [], isFlushing := false } 0)).2 =
      [0, 1] := by
  decide

lemma addUnique_extends {α : Type} [DecidableEq α] (xs : List α) (x : α) :
    xs.IsPrefix (addUnique xs x) := by
  unfold addUnique
  split
  · exact List.prefix_refl xs
  · exact ⟨[x], rfl⟩

lemma foldl_addUnique_extends {α : Type} [DecidableEq α] :
    ∀ (js : List α) (l : List α), l.IsPrefix (js.foldl addUnique l) := by
  intro js
  induction js with
  | nil => intro l; exact List.prefix_refl l
  | cons j rest ih =>
      intro l
      rw [List.foldl_cons]
      exact List.IsPrefix.trans (addUnique_extends l j) (ih (addUnique l j))

lemma foldl_addUnique_nodup {α : Type} [DecidableEq α] :
    ∀ (js l : List α), l.Nodup → (js.foldl addUnique l).Nodup := by
  intro js
  induction js with
  | nil => intro l h; exact h
  | cons j rest ih =>
      intro l h
      rw [List.foldl_cons]
      exact ih (addUnique l j) (addUnique_nodup h j)

lemma foldl_addUnique_mem {α : Type} [DecidableEq α] :
    ∀ (js l : List α) (x : α), x ∈ js.foldl addUnique l → x ∈ l ∨ x ∈ js := by
  intro js
  induction js with
  | nil => intro l x h; exact Or.inl h
  | cons j rest ih =>
      intro l x h
      rw [List.foldl_cons] at h
      rcases ih (addUnique l j) x h with h2 | h2
      · rcases (mem_addUnique l j x).mp h2 with h3 | h3
        · exact Or.inl h3
        · exact Or.inr (h3 ▸ List.mem_cons_self j rest)
      · exact Or.inr (List.mem_cons_of_mem j h2)

lemma nodup_bounded_length (l : List Nat) (N : Nat) (hnd : l.Nodup)
    (hb : ∀ j ∈ l, j < N) : l.length ≤ N := by
  have h1 : l.toFinset.card = l.length := List.toFinset_card_of_nodup hnd
  have h2 : l.toFinset ⊆ Finset.range N := by
    intro x hx
    rw [Finset.mem_range]
    exact hb x (List.mem_toFinset.mp hx)
  have h3 := Finset.card_le_card h2
  rw [h1, Finset.card_range] at h3
  exact h3

/-- Complete characterization of one flush pass with enough fuel: the final
pending set extends the initial one, stays duplicate free and bounded, and the
invocation log is exactly the final set from position `i` on. -/
lemma flushLoop_spec (spec : Nat → List Nat) (N : Nat)
    (hspec : ∀ j j2, j2 ∈ spec j → j2 < N) :
    ∀ (fuel i : Nat) (pending : List Nat), pending.Nodup →
      (∀ j ∈ pending, j < N) → i ≤ pending.length → N - i ≤ fuel →
      (flushLoop spec fuel i pending).1.Nodup ∧
      (∀ j ∈ (flushLoop spec fuel i pending).1, j < N) ∧
      pending.IsPrefix (flushLoop spec fuel i pending).1 ∧
      (flushLoop spec fuel i pending).2 = (flushLoop spec fuel i pending).1.drop i := by
  intro fuel
  induction fuel with
  | zero =>
      intro i pending hnd hb hi hf
      have hlen : pending.length ≤ N := nodup_bounded_length pending N hnd hb
      have hle : pending.length ≤ i := by omega
      refine ⟨hnd, hb, List.prefix_refl pending, ?_⟩
      show ([] : List Nat) = pending.drop i
      rw [List.drop_eq_nil_of_le hle]
  | succ fuel ih =>
      intro i pending hnd hb hi hf
      cases hgi : pending[i]? with
      | none =>
          have hlen : pending.length ≤ i := by
            by_contra hcon
            push_neg at hcon
            rw [List.getElem?_eq_getElem hcon] at hgi
            cases hgi
          simp only [flushLoop, hgi]
          refine ⟨hnd, hb, List.prefix_refl pending, ?_⟩
          rw [List.drop_eq_nil_of_le hlen]
      | some j =>
          have hilt : i < pending.length := by
            by_contra hcon
            push_neg at hcon
            rw [List.getElem?_eq_none hcon] at hgi
            cases hgi
          have hji : pending[i] = j := by
            rw [List.getElem?_eq_getElem hilt] at hgi
            exact Option.some.inj hgi
          have hnd1 : ((spec j).foldl addUnique pending).Nodup :=
            foldl_addUnique_nodup _ _ hnd
          have hb1 : ∀ x ∈ (spec j).foldl addUnique pending, x < N := by
            intro x hx
            rcases foldl_addUnique_mem _ _ _ hx with h2 | h2
            · exact hb x h2
            · exact hspec j x h2
          have hpre1 : pending.IsPrefix ((spec j).foldl addUnique pending) :=
            foldl_addUnique_extends _ _
          have hi1 : i + 1 ≤ ((spec j).foldl addUnique pending).length := by
            have := hpre1.length_le
            omega
          have hf1 : N - (i + 1) ≤ fuel := by omega
          have hrec := ih (i + 1) ((spec j).foldl addUnique pending) hnd1 hb1 hi1 hf1
          simp only [flushLoop, hgi]
          have hpre : pending.IsPrefix
              (flushLoop spec fuel (i + 1) ((spec j).foldl addUnique pending)).1 :=
            List.IsPrefix.trans hpre1 hrec.2.2.1
          refine ⟨hrec.1, hrec.2.1, hpre, ?_⟩
          rw [hrec.2.2.2]
          have hilt1 : i <
              (flushLoop spec fuel (i + 1) ((spec j).foldl addUnique pending)).1.length := by
            have := hpre.length_le
            omega
          rw [List.drop_eq_getElem_cons hilt1]
          congr 1
          obtain ⟨tl, htl⟩ := hpre
          have hX := List.getElem_of_eq htl.symm hilt1
          rw [hX, List.getElem_append_left hilt]
          exact hji.symm

/-- Claim C6, amended: within one flush each job is invoked at most once and
every job pending when the flush began is invoked; a job queued during the
pass that is new to the set is appended and invoked by that same pass — the
invocation log equals the final grown pending set — while re-queuing an
already-present job adds no invocation.  Afterwards the set is cleared and the
scheduling flag reset. -/
theorem flush_invokes_pending_once (spec : Nat → List Nat) (N fuel : Nat)
    (s : QueueState) (hnd : s.pending.Nodup) (hp : ∀ j ∈ s.pending, j < N)
    (hspec : ∀ j j2, j2 ∈ spec j → j2 < N) (hfuel : N ≤ fuel) :
    (flushJobs spec fuel s).2.Nodup ∧
    (∀ j ∈ s.pending, j ∈ (flushJobs spec fuel s).2) ∧
    (flushJobs spec fuel s).2 = (flushLoop spec fuel 0 s.pending).1 ∧
    (flushJobs spec fuel s).1.pending = [] ∧
    (flushJobs spec fuel s).1.isFlushing = false := by
  have h := flushLoop_spec spec N hspec fuel 0 s.pending hnd hp (Nat.zero_le _)
    (by omega)
  have hlog : (flushJobs spec fuel s).2 = (flushLoop spec fuel 0 s.pending).1 := by
    show (flushLoop spec fuel 0 s.pending).2 = _
    rw [h.2.2.2]
    rw [List.drop_zero]
  refine ⟨?_, ?_, hlog, rfl, rfl⟩
  · rw [hlog]
    exact h.1
  · intro j hj
    rw [hlog]
    exact h.2.2.1.subset hj

/-- Witness for flush_invokes_pending_once: job 0 pending, queuing job 1
mid-pass; both run once and the queue ends empty. -/
theorem flush_invokes_pending_once_witness :
    ([0] : List Nat).Nodup ∧ (∀ j ∈ ([0] : List Nat), j < 2) ∧
    (∀ j j2, j2 ∈ specC6 j → j2 < 2) ∧ 2 ≤ 2 ∧
    (flushJobs specC6 2 { pending := [0], isFlushing := true }).2.Nodup ∧
    (∀ j ∈ ([0] : List Nat),
      j ∈ (flushJobs specC6 2 { pending := [0], isFlushing := true }).2) ∧
    (flushJobs specC6 2 { pending := [0], isFlushing := true }).1.pending = [] := by
  have hspec : ∀ j j2, j2 ∈ specC6 j → j2 < 2 := by
    intro j j2 h
    unfold specC6 at h
    split at h
    · rw [List.mem_singleton] at h
      omega
    · exact absurd h (List.not_mem_nil j2)
  have h := flush_invokes_pending_once specC6 2 2
    { pending := [0], isFlushing := true } (by decide) (by decide) hspec (by decide)
  exact ⟨by decide, by decide, hspec, by decide, h.1, h.2.1, h.2.2.2.1⟩

mutual

/-- Unmounting with any accumulated prefix appends the same event trace. -/
lemma unmountRun_append (t : MTree) (acc : List UEvent) :
    unmountRun t acc = acc ++ unmountRun t [] := by
  cases t with
  | comp cbs sub upd =>
      cases sub with
      | none =>
          cases upd with
          | none => simp [unmountRun]
          | some u => simp [unmountRun]
      | some st =>
          cases upd with
          | none =>
              show unmountRun st (acc ++ invokeLifecycleHooks cbs) =
                acc ++ unmountRun st ([] ++ invokeLifecycleHooks cbs)
              rw [unmountRun_append st (acc ++ invokeLifecycleHooks cbs)]
              rw [unmountRun_append st ([] ++ invokeLifecycleHooks cbs)]
              simp [List.append_assoc]
          | some u =>
              show unmountRun st (acc ++ invokeLifecycleHooks cbs) ++
                  [UEvent.teardown u] =
                acc ++ (unmountRun st ([] ++ invokeLifecycleHooks cbs) ++
                  [UEvent.teardown u])
              rw [unmountRun_append st (acc ++ invokeLifecycleHooks cbs)]
              rw [unmountRun_append st ([] ++ invokeLifecycleHooks cbs)]
              simp [List.append_assoc]
  | frag a cs =>
      show unmountRunList cs acc ++ [UEvent.removeNode a] =
        acc ++ (unmountRunList cs [] ++ [UEvent.removeNode a])
      rw [unmountRunList_append cs acc]
      simp [List.append_assoc]
  | elem el cs =>
      show unmountRunList cs acc ++ [UEvent.removeNode el] =
        acc ++ (unmountRunList cs [] ++ [UEvent.removeNode el])
      rw [unmountRunList_append cs acc]
      simp [List.append_assoc]

/-- Unmounting a child list with any accumulated prefix appends the same
event trace. -/
lemma unmountRunList_append (cs : List MTree) (acc : List UEvent) :
    unmountRunList cs acc = acc ++ unmountRunList cs [] := by
  cases cs with
  | nil => simp [unmountRunList]
  | cons c rest =>
      show unmountRunList rest (unmountRun c acc) =
        acc ++ unmountRunList rest (unmountRun c [])
      rw [unmountRun_append c acc]
      rw [unmountRunList_append rest (acc ++ unmountRun c [])]
      rw [unmountRunList_append rest (unmountRun c [])]
      simp [List.append_assoc]

end

/-- Claim C8 (unmount ordering): unmounting a component-typed vnode first
invokes every registered unmount callback in registration order, then emits
the complete unmount trace of the rendered subtree, and detaches the update
effect last. -/
theorem unmount_ordering (cbs : List Nat) (sub : MTree) (u : Nat)
    (acc : List UEvent) :
    unmountRun (MTree.comp cbs (some sub) (some u)) acc =
      acc ++ invokeLifecycleHooks cbs ++ unmountRun sub [] ++
        [UEvent.teardown u] := by
  show unmountRun sub (acc ++ invokeLifecycleHooks cbs) ++ [UEvent.teardown u] = _
  rw [unmountRun_append sub (acc ++ invokeLifecycleHooks cbs)]

/-! ### Helper lemmas about keyed reconciliation -/

lemma mapGet_append_left_none {m1 m2 : List (Nat × MVNode)} {k : Nat}
    (h : mapGet m1 k = none) : mapGet (m1 ++ m2) k = mapGet m2 k := by
  induction m1 with
  | nil => rfl
  | cons p rest ih =>
      rw [List.cons_append]
      simp only [mapGet] at h ⊢
      split at h
      · cases h
      · rename_i hp
        rw [if_neg hp]
        exact ih h

lemma mapGet_singleton_ne {k k0 : Nat} {v : MVNode} (h : k0 ≠ k) :
    mapGet [(k0, v)] k = none := by
  unfold mapGet
  rw [if_neg h]
  rfl

lemma mapGet_singleton_self {k : Nat} {v : MVNode} :
    mapGet [(k, v)] k = some v := by
  unfold mapGet
  rw [if_pos rfl]

lemma mapSet_of_mapGet_none {m : List (Nat × MVNode)} {k : Nat} (v : MVNode)
    (h : mapGet m k = none) : mapSet m k v = m ++ [(k, v)] := by
  unfold mapSet
  rw [h]
  rfl

lemma mapDel_mapGet_ne {m : List (Nat × MVNode)} {k k2 : Nat} (h : k2 ≠ k) :
    mapGet (mapDel m k) k2 = mapGet m k2 := by
  induction m with
  | nil => rfl
  | cons p rest ih =>
      unfold mapDel at ih ⊢
      rw [List.filter_cons]
      by_cases hp : p.1 = k
      · rw [if_neg (by simp [hp])]
        rw [ih]
        simp only [mapGet]
        rw [if_neg (by rw [hp]; exact fun he => h he.symm)]
      · rw [if_pos (by simp [hp])]
        show mapGet (p :: rest.filter fun q => decide (q.1 ≠ k)) k2 =
          mapGet (p :: rest) k2
        simp only [mapGet]
        by_cases hk2 : p.1 = k2
        · rw [if_pos hk2, if_pos hk2]
        · rw [if_neg hk2, if_neg hk2]
          exact ih

lemma mem_mapDel {m : List (Nat × MVNode)} {k : Nat} {p : Nat × MVNode}
    (h : p ∈ mapDel m k) : p ∈ m ∧ p.1 ≠ k := by
  have h2 := List.mem_filter.mp h
  exact ⟨h2.1, of_decide_eq_true h2.2⟩

lemma mem_mapSet {m : List (Nat × MVNode)} {k : Nat} {v : MVNode}
    {p : Nat × MVNode} (h : p ∈ mapSet m k v) : p ∈ m ∨ p = (k, v) := by
  unfold mapSet at h
  split at h
  · rcases List.mem_map.mp h with ⟨q, hq, hqe⟩
    by_cases hqk : q.1 = k
    · rw [if_pos hqk] at hqe
      exact Or.inr hqe.symm
    · rw [if_neg hqk] at hqe
      exact Or.inl (hqe ▸ hq)
  · rcases List.mem_append.mp h with h2 | h2
    · exact Or.inl h2
    · exact Or.inr (List.mem_singleton.mp h2)

lemma mapGet_append_single_ne {m : List (Nat × MVNode)} {k k0 : Nat}
    {c : MVNode} (h : k0 ≠ k) : mapGet (m ++ [(k0, c)]) k = mapGet m k := by
  induction m with
  | nil =>
      show mapGet [(k0, c)] k = none
      exact mapGet_singleton_ne h
  | cons p rest ih =>
      rw [List.cons_append]
      simp only [mapGet]
      split
      · rfl
      · exact ih

/-- Characterization of the `oldKeyed` pool construction: looking up a key in
the built map finds the first old child carrying it (keys are distinct). -/
lemma keyedFold_mapGet :
    ∀ (old : List MVNode) (m : List (Nat × MVNode)) (k : Nat),
      (old.filterMap (fun c => c.key)).Nodup →
      (∀ o ∈ old, ∀ k2, o.key = some k2 → mapGet m k2 = none) →
      mapGet (old.foldl keyedStep m) k =
      (match old.find? (fun c => decide (c.key = some k)) with
       | some o => some o
       | none => mapGet m k) := by
  intro old
  induction old with
  | nil => intro m k _ _; rfl
  | cons c rest ih =>
      intro m k hnd hdis
      rw [List.foldl_cons]
      cases hc : c.key with
      | none =>
          have hnd2 : (rest.filterMap (fun c => c.key)).Nodup := by
            rwa [List.filterMap_cons_none hc] at hnd
          have hdis2 : ∀ o ∈ rest, ∀ k2, o.key = some k2 → mapGet m k2 = none :=
            fun o ho => hdis o (List.mem_cons_of_mem c ho)
          rw [List.find?_cons_of_neg _ (by simp [hc])]
          have hstep : keyedStep m c = m := by
            unfold keyedStep
            rw [hc]
          rw [hstep]
          exact ih m k hnd2 hdis2
      | some k0 =>
          have hm0 : mapGet m k0 = none :=
            hdis c (List.mem_cons_self c rest) k0 hc
          have hk0nin : k0 ∉ rest.filterMap (fun c => c.key) := by
            rw [List.filterMap_cons_some hc] at hnd
            exact (List.nodup_cons.mp hnd).1
          have hnd2 : (rest.filterMap (fun c => c.key)).Nodup := by
            rw [List.filterMap_cons_some hc] at hnd
            exact (List.nodup_cons.mp hnd).2
          have hdis2 : ∀ o ∈ rest, ∀ k2, o.key = some k2 →
              mapGet (m ++ [(k0, c)]) k2 = none := by
            intro o ho k2 hk2
            have hne : k2 ≠ k0 := by
              intro heq
              apply hk0nin
              rw [← heq]
              exact List.mem_filterMap.mpr ⟨o, ho, hk2⟩
            rw [mapGet_append_left_none (hdis o (List.mem_cons_of_mem c ho) k2 hk2)]
            exact mapGet_singleton_ne (fun h2 => hne h2.symm)
          have hstep : keyedStep m c = m ++ [(k0, c)] := by
            unfold keyedStep
            rw [hc]
            exact mapSet_of_mapGet_none c hm0
          rw [hstep]
          have hrec := ih (m ++ [(k0, c)]) k hnd2 hdis2
          by_cases hk : k = k0
          · subst hk
            rw [List.find?_cons_of_pos _ (by simp [hc])]
            have hfr : rest.find? (fun c2 => decide (c2.key = some k)) = none := by
              rw [List.find?_eq_none]
              intro o ho
              simp only [decide_eq_true_eq]
              intro hok
              apply hk0nin
              exact List.mem_filterMap.mpr ⟨o, ho, hok⟩
            rw [hrec, hfr]
            show mapGet (m ++ [(k, c)]) k = some c
            rw [mapGet_append_left_none hm0]
            exact mapGet_singleton_self
          · rw [List.find?_cons_of_neg _
              (by simp [hc]; exact fun h2 => hk h2.symm)]
            rw [hrec]
            cases rest.find? (fun c2 => decide (c2.key = some k)) with
            | some o => rfl
            | none =>
                show mapGet (m ++ [(k0, c)]) k = mapGet m k
                exact mapGet_append_single_ne (fun h2 => hk h2.symm)

/-- With distinct keys, `find?` by key returns exactly the member carrying
that key. -/
lemma find_by_key :
    ∀ (old : List MVNode), (old.filterMap (fun c => c.key)).Nodup →
      ∀ o ∈ old, ∀ k, o.key = some k →
      old.find? (fun c => decide (c.key = some k)) = some o := by
  intro old
  induction old with
  | nil => intro _ o ho; exact absurd ho (List.not_mem_nil o)
  | cons c rest ih =>
      intro hnd o ho k hk
      rcases List.mem_cons.mp ho with rfl | ho2
      · exact List.find?_cons_of_pos _ (by simp [hk])
      · cases hc : c.key with
        | none =>
            have hnd2 : (rest.filterMap (fun c => c.key)).Nodup := by
              rwa [List.filterMap_cons_none hc] at hnd
            rw [List.find?_cons_of_neg _ (by simp [hc])]
            exact ih hnd2 o ho2 k hk
        | some k0 =>
            have hk0nin : k0 ∉ rest.filterMap (fun c => c.key) := by
              rw [List.filterMap_cons_some hc] at hnd
              exact (List.nodup_cons.mp hnd).1
            have hnd2 : (rest.filterMap (fun c => c.key)).Nodup := by
              rw [List.filterMap_cons_some hc] at hnd
              exact (List.nodup_cons.mp hnd).2
            have hne : k0 ≠ k := by
              intro heq
              apply hk0nin
              rw [heq]
              exact List.mem_filterMap.mpr ⟨o, ho2, hk⟩
            rw [List.find?_cons_of_neg _ (by simp [hc, hne])]
            exact ih hnd2 o ho2 k hk

/-- Every entry of the keyed pool construction comes from a keyed old child. -/
lemma mem_keyedFold :
    ∀ (old : List MVNode) (m : List (Nat × MVNode)) (p : Nat × MVNode),
      p ∈ old.foldl keyedStep m →
      p ∈ m ∨ ∃ o ∈ old, o.key = some p.1 := by
  intro old
  induction old with
  | nil => intro m p h; exact Or.inl h
  | cons c rest ih =>
      intro m p h
      rw [List.foldl_cons] at h
      cases hc : c.key with
      | none =>
          rw [show keyedStep m c = m from by unfold keyedStep; rw [hc]] at h
          rcases ih m p h with h2 | ⟨o, ho, hk⟩
          · exact Or.inl h2
          · exact Or.inr ⟨o, List.mem_cons_of_mem c ho, hk⟩
      | some k0 =>
          rw [show keyedStep m c = mapSet m k0 c from by
            unfold keyedStep; rw [hc]] at h
          rcases ih (mapSet m k0 c) p h with h2 | ⟨o, ho, hk⟩
          · rcases mem_mapSet h2 with h3 | h3
            · exact Or.inl h3
            · refine Or.inr ⟨c, List.mem_cons_self c rest, ?_⟩
              rw [hc, h3]
          · exact Or.inr ⟨o, List.mem_cons_of_mem c ho, hk⟩

/-- The reconciliation loop on a keyed new child whose key hits the pool:
patch in place, pool entry consumed. -/
lemma patchNew_cons_keyed (oldU : List MVNode) (st : RState)
    (m : List (Nat × MVNode)) (ui : Nat) (c : MVNode) (rest : List MVNode)
    (k : Nat) (o : MVNode) (hck : c.key = some k) (hgo : mapGet m k = some o)
    (hvt : o.vtype = c.vtype) :
    patchNewChildren oldU st m ui (c :: rest) =
      ((patchNewChildren oldU
          { nextEl := st.nextEl, log := st.log ++ [REvent.patched o.el] }
          (mapDel m k) ui rest).1,
       { c with el := o.el } ::
         (patchNewChildren oldU
           { nextEl := st.nextEl, log := st.log ++ [REvent.patched o.el] }
           (mapDel m k) ui rest).2.1,
       (patchNewChildren oldU
         { nextEl := st.nextEl, log := st.log ++ [REvent.patched o.el] }
         (mapDel m k) ui rest).2.2) := by
  simp only [patchNewChildren]
  rw [hck]
  dsimp only
  rw [hgo]
  dsimp only
  unfold patchPair
  rw [if_pos hvt]
  dsimp only
  rw [hck]

/-- Running the reconciliation loop on all-keyed new children whose keys all
hit the pool with equal types: every child is patched in place onto its
match's realized output, nothing is mounted or unmounted, the leftover pool
holds exactly the unconsumed entries, and the positional index is
untouched. -/
lemma patchNew_keyed (oldU : List MVNode) :
    ∀ (new : List MVNode) (st : RState) (m : List (Nat × MVNode)) (ui : Nat),
      (new.filterMap (fun c => c.key)).Nodup →
      (∀ c ∈ new, ∃ k o, c.key = some k ∧ mapGet m k = some o ∧
        o.vtype = c.vtype) →
      (patchNewChildren oldU st m ui new).1 =
        { nextEl := st.nextEl,
          log := st.log ++ new.map (fun c => REvent.patched (elForM m c)) } ∧
      (patchNewChildren oldU st m ui new).2.1 =
        new.map (fun c => { c with el := elForM m c }) ∧
      (∀ p ∈ (patchNewChildren oldU st m ui new).2.2.1,
        p ∈ m ∧ ∀ c ∈ new, c.key ≠ some p.1) ∧
      (patchNewChildren oldU st m ui new).2.2.2 = ui := by
  intro new
  induction new with
  | nil =>
      intro st m ui _ _
      refine ⟨?_, rfl, ?_, rfl⟩
      · show st = _
        rw [List.map_nil, List.append_nil]
      · intro p hp
        exact ⟨hp, fun c hc => absurd hc (List.not_mem_nil c)⟩
  | cons c rest ih =>
      intro st m ui hnd hm
      obtain ⟨k, o, hck, hgo, hvt⟩ := hm c (List.mem_cons_self c rest)
      rw [patchNew_cons_keyed oldU st m ui c rest k o hck hgo hvt]
      have hknin : k ∉ rest.filterMap (fun c => c.key) := by
        rw [List.filterMap_cons_some hck] at hnd
        exact (List.nodup_cons.mp hnd).1
      have hnd2 : (rest.filterMap (fun c => c.key)).Nodup := by
        rw [List.filterMap_cons_some hck] at hnd
        exact (List.nodup_cons.mp hnd).2
      have hrestkey : ∀ c2 ∈ rest, ∀ k2, c2.key = some k2 → k2 ≠ k := by
        intro c2 hc2 k2 hk2 heq
        exact hknin (heq ▸ List.mem_filterMap.mpr ⟨c2, hc2, hk2⟩)
      have hm2 : ∀ c2 ∈ rest, ∃ k2 o2, c2.key = some k2 ∧
          mapGet (mapDel m k) k2 = some o2 ∧ o2.vtype = c2.vtype := by
        intro c2 hc2
        obtain ⟨k2, o2, h1, h2, h3⟩ := hm c2 (List.mem_cons_of_mem c hc2)
        refine ⟨k2, o2, h1, ?_, h3⟩
        rw [mapDel_mapGet_ne (hrestkey c2 hc2 k2 h1)]
        exact h2
      have hel : ∀ c2 ∈ rest, elForM (mapDel m k) c2 = elForM m c2 := by
        intro c2 hc2
        unfold elForM
        cases hk2 : c2.key with
        | none => rfl
        | some k2 =>
            dsimp only
            rw [mapDel_mapGet_ne (hrestkey c2 hc2 k2 hk2)]
      have helc : elForM m c = o.el := by
        unfold elForM
        rw [hck]
        dsimp only
        rw [hgo]
      have hrec := ih { nextEl := st.nextEl, log := st.log ++ [REvent.patched o.el] }
        (mapDel m k) ui hnd2 hm2
      refine ⟨?_, ?_, ?_, hrec.2.2.2⟩
      · rw [hrec.1]
        rw [List.map_congr_left (fun c2 hc2 => by rw [hel c2 hc2] :
          ∀ c2 ∈ rest, REvent.patched (elForM (mapDel m k) c2) =
            REvent.patched (elForM m c2))]
        simp only [List.map_cons, helc]
        rw [List.append_assoc, List.singleton_append]
      · rw [hrec.2.1]
        rw [List.map_congr_left (fun c2 hc2 => by rw [hel c2 hc2] :
          ∀ c2 ∈ rest, ({ c2 with el := elForM (mapDel m k) c2 } : MVNode) =
            { c2 with el := elForM m c2 })]
        simp only [List.map_cons, helc]
      · intro p hp
        obtain ⟨hpm, hnotm⟩ := hrec.2.2.1 p hp
        obtain ⟨hpmm, hpk⟩ := mem_mapDel hpm
        refine ⟨hpmm, ?_⟩
        intro c2 hc2
        rcases List.mem_cons.mp hc2 with rfl | hc2r
        · rw [hck]
          intro heq
          exact hpk (Option.some.inj heq).symm
        · exact hnotm c2 hc2r

/-- `patchChildren` on a keyed permutation: every new child is patched in
place onto the realized output of the old child with its key; nothing is
mounted or unmounted. -/
lemma keyed_permutation_patch (st : RState) (old new : List MVNode)
    (hko : ∀ c ∈ old, c.key ≠ none)
    (hndo : (old.filterMap (fun c => c.key)).Nodup)
    (hndn : (new.filterMap (fun c => c.key)).Nodup)
    (hmatch : ∀ c ∈ new, ∃ o ∈ old, o.key = c.key ∧ o.vtype = c.vtype)
    (hcover : ∀ o ∈ old, ∃ c ∈ new, c.key = o.key) :
    (patchChildren st old new).2 =
      new.map (fun c => { c with el := oldElFor old c }) ∧
    (patchChildren st old new).1.log =
      st.log ++ new.map (fun c => REvent.patched (oldElFor old c)) ∧
    (patchChildren st old new).1.nextEl = st.nextEl := by
  have hunk : old.filter (fun c => c.key.isNone) = [] := by
    rw [List.filter_eq_nil_iff]
    intro c hc
    have h2 := hko c hc
    simp [Option.isNone_iff_eq_none, h2]
  have hbig : ∀ c ∈ new, ∃ k o, c.key = some k ∧
      mapGet (buildKeyed old) k = some o ∧ o.vtype = c.vtype ∧
      old.find? (fun o2 => decide (o2.key = c.key)) = some o := by
    intro c hc
    obtain ⟨o, ho, hok, hvt⟩ := hmatch c hc
    obtain ⟨k, hk⟩ := Option.ne_none_iff_exists'.mp (hko o ho)
    have hck : c.key = some k := by rw [← hok]; exact hk
    have hfind : old.find? (fun o2 => decide (o2.key = some k)) = some o :=
      find_by_key old hndo o ho k hk
    have hmg : mapGet (buildKeyed old) k = some o := by
      unfold buildKeyed
      rw [keyedFold_mapGet old [] k hndo (fun o2 _ k2 _ => rfl)]
      rw [hfind]
    refine ⟨k, o, hck, hmg, hvt, ?_⟩
    rw [hck]
    exact hfind
  have hm2 : ∀ c ∈ new, ∃ k o, c.key = some k ∧
      mapGet (buildKeyed old) k = some o ∧ o.vtype = c.vtype := by
    intro c hc
    obtain ⟨k, o, h1, h2, h3, _⟩ := hbig c hc
    exact ⟨k, o, h1, h2, h3⟩
  have hrec := patchNew_keyed [] new st (buildKeyed old) 0 hndn hm2
  have hpool : (patchNewChildren [] st (buildKeyed old) 0 new).2.2.1 = [] := by
    rw [List.eq_nil_iff_forall_not_mem]
    intro p hp
    obtain ⟨hpm, hnot⟩ := hrec.2.2.1 p hp
    rcases mem_keyedFold old [] p hpm with h2 | ⟨o, ho, hok⟩
    · exact absurd h2 (List.not_mem_nil p)
    · obtain ⟨c, hc, hck⟩ := hcover o ho
      exact hnot c hc (by rw [hck, hok])
  have helq : ∀ c ∈ new, elForM (buildKeyed old) c = oldElFor old c := by
    intro c hc
    obtain ⟨k, o, h1, h2, h3, h4⟩ := hbig c hc
    rw [h1] at h4
    unfold elForM oldElFor
    rw [h1]
    dsimp only
    rw [h2]
    dsimp only
    rw [h4]
  refine ⟨?_, ?_, ?_⟩
  · show (patchChildren st old new).2 = _
    simp only [patchChildren]
    rw [hunk]
    rw [hrec.2.1]
    exact List.map_congr_left (fun c hc => by rw [helq c hc])
  · simp only [patchChildren]
    rw [hunk, hpool]
    simp only [List.foldl_nil, List.drop_nil]
    rw [hrec.1]
    show st.log ++ _ = st.log ++ _
    rw [List.map_congr_left (fun c hc => by rw [helq c hc] :
      ∀ c ∈ new, REvent.patched (elForM (buildKeyed old) c) =
        REvent.patched (oldElFor old c))]
  · simp only [patchChildren]
    rw [hunk, hpool]
    simp only [List.foldl_nil, List.drop_nil]
    rw [hrec.1]

/-- The reconciliation loop on an unkeyed new child with an old positional
match available: patch in place, `unkeyedIndex` incremented. -/
lemma patchNew_cons_pos (oldU : List MVNode) (st : RState)
    (m : List (Nat × MVNode)) (ui : Nat) (c : MVNode) (rest : List MVNode)
    (oldc : MVNode) (hck : c.key = none) (hgi : oldU[ui]? = some oldc)
    (hvt : oldc.vtype = c.vtype) :
    patchNewChildren oldU st m ui (c :: rest) =
      ((patchNewChildren oldU
          { nextEl := st.nextEl, log := st.log ++ [REvent.patched oldc.el] }
          m (ui + 1) rest).1,
       { c with el := oldc.el } ::
         (patchNewChildren oldU
           { nextEl := st.nextEl, log := st.log ++ [REvent.patched oldc.el] }
           m (ui + 1) rest).2.1,
       (patchNewChildren oldU
         { nextEl := st.nextEl, log := st.log ++ [REvent.patched oldc.el] }
         m (ui + 1) rest).2.2) := by
  simp only [patchNewChildren]
  rw [hck]
  dsimp only
  rw [hgi]
  dsimp only
  unfold patchPair
  rw [if_pos hvt]
  dsimp only
  rw [hck]

/-- The reconciliation loop on an unkeyed new child with the positional list
exhausted: mount fresh, `unkeyedIndex` still incremented. -/
lemma patchNew_cons_mount (oldU : List MVNode) (st : RState)
    (m : List (Nat × MVNode)) (ui : Nat) (c : MVNode) (rest : List MVNode)
    (hck : c.key = none) (hgi : oldU[ui]? = none) :
    patchNewChildren oldU st m ui (c :: rest) =
      ((patchNewChildren oldU
          { nextEl := st.nextEl + 1,
            log := st.log ++ [REvent.mounted st.nextEl] }
          m (ui + 1) rest).1,
       { c with el := some st.nextEl } ::
         (patchNewChildren oldU
           { nextEl := st.nextEl + 1,
             log := st.log ++ [REvent.mounted st.nextEl] }
           m (ui + 1) rest).2.1,
       (patchNewChildren oldU
         { nextEl := st.nextEl + 1,
           log := st.log ++ [REvent.mounted st.nextEl] }
         m (ui + 1) rest).2.2) := by
  simp only [patchNewChildren]
  rw [hck]
  dsimp only
  rw [hgi]
  dsimp only
  unfold mountChild
  dsimp only
  rw [hck]

/-- Running the reconciliation loop on all-unkeyed new children: each new
child consumes the next old positional child (patched in place onto its
realized output) while surplus new children are freshly mounted; nothing is
unmounted during the loop and the keyed pool stays empty. -/
lemma patchNew_unkeyed (oldU : List MVNode) :
    ∀ (new : List MVNode) (st : RState) (ui : Nat),
      (∀ c ∈ new, c.key = none) →
      (∀ j nc oc, new[j]? = some nc → oldU[ui + j]? = some oc →
        oc.vtype = nc.vtype) →
      (patchNewChildren oldU st [] ui new).2.2.2 = ui + new.length ∧
      (patchNewChildren oldU st [] ui new).2.2.1 = [] ∧
      (patchNewChildren oldU st [] ui new).2.1.length = new.length ∧
      (∀ j nc oc, new[j]? = some nc → oldU[ui + j]? = some oc →
        (patchNewChildren oldU st [] ui new).2.1[j]? =
          some { nc with el := oc.el }) ∧
      (∃ evs, (patchNewChildren oldU st [] ui new).1.log = st.log ++ evs ∧
        (∀ ev ∈ evs, isUnmount ev = false) ∧
        (evs.filter isMount).length = (ui + new.length) - max ui oldU.length) ∧
      (patchNewChildren oldU st [] ui new).1.nextEl =
        st.nextEl + ((ui + new.length) - max ui oldU.length) := by
  intro new
  induction new with
  | nil =>
      intro st ui _ _
      have hz : (ui + ([] : List MVNode).length) - max ui oldU.length = 0 := by
        simp only [List.length_nil, Nat.add_zero]
        omega
      refine ⟨by simp [patchNewChildren], rfl, rfl, ?_,
        ⟨[], by simp [patchNewChildren], ?_, ?_⟩, ?_⟩
      · intro j nc oc h1 _
        rw [List.getElem?_nil] at h1
        cases h1
      · intro ev hev
        exact absurd hev (List.not_mem_nil ev)
      · rw [hz]
        rfl
      · rw [hz]
        simp [patchNewChildren]
  | cons c rest ih =>
      intro st ui hk htypes
      have hck : c.key = none := hk c (List.mem_cons_self c rest)
      have hkr : ∀ c2 ∈ rest, c2.key = none :=
        fun c2 hc2 => hk c2 (List.mem_cons_of_mem c hc2)
      cases hgi : oldU[ui]? with
      | some oldc =>
          have hui : ui < oldU.length := by
            by_contra hcon
            push_neg at hcon
            rw [List.getElem?_eq_none hcon] at hgi
            cases hgi
          have hvt : oldc.vtype = c.vtype := by
            refine htypes 0 c oldc (by rw [List.getElem?_cons_zero]) ?_
            rw [Nat.add_zero]
            exact hgi
          rw [patchNew_cons_pos oldU st [] ui c rest oldc hck hgi hvt]
          have htr : ∀ j nc oc, rest[j]? = some nc →
              oldU[(ui + 1) + j]? = some oc → oc.vtype = nc.vtype := by
            intro j nc oc h1 h2
            refine htypes (j + 1) nc oc ?_ ?_
            · rw [List.getElem?_cons_succ]
              exact h1
            · rw [show ui + (j + 1) = (ui + 1) + j from by omega]
              exact h2
          have hrec := ih ⟨st.nextEl, st.log ++ [REvent.patched oldc.el]⟩
            (ui + 1) hkr htr
          refine ⟨?_, hrec.2.1, ?_, ?_, ?_, ?_⟩
          · rw [hrec.1, List.length_cons]
            omega
          · simp only [List.length_cons]
            rw [hrec.2.2.1]
          · intro j nc oc h1 h2
            cases j with
            | zero =>
                rw [List.getElem?_cons_zero] at h1
                rw [Nat.add_zero] at h2
                rw [hgi] at h2
                cases h1
                cases h2
                rw [List.getElem?_cons_zero]
            | succ j2 =>
                rw [List.getElem?_cons_succ] at h1 ⊢
                refine hrec.2.2.2.1 j2 nc oc h1 ?_
                rw [show (ui + 1) + j2 = ui + (j2 + 1) from by omega]
                exact h2
          · obtain ⟨evs, he1, he2, he3⟩ := hrec.2.2.2.2.1
            refine ⟨REvent.patched oldc.el :: evs, ?_, ?_, ?_⟩
            · rw [he1]
              show (st.log ++ [REvent.patched oldc.el]) ++ evs = _
              rw [List.append_assoc, List.singleton_append]
            · intro ev hev
              rcases List.mem_cons.mp hev with rfl | hev2
              · rfl
              · exact he2 ev hev2
            · rw [List.filter_cons]
              rw [if_neg (by simp [isMount])]
              rw [he3, List.length_cons]
              omega
          · rw [hrec.2.2.2.2.2]
            show st.nextEl + _ = st.nextEl + _
            rw [List.length_cons]
            omega
      | none =>
          have hlen : oldU.length ≤ ui := by
            by_contra hcon
            push_neg at hcon
            rw [List.getElem?_eq_getElem hcon] at hgi
            cases hgi
          rw [patchNew_cons_mount oldU st [] ui c rest hck hgi]
          have htr : ∀ j nc oc, rest[j]? = some nc →
              oldU[(ui + 1) + j]? = some oc → oc.vtype = nc.vtype := by
            intro j nc oc _ h2
            rw [List.getElem?_eq_none (by omega)] at h2
            cases h2
          have hrec := ih ⟨st.nextEl + 1, st.log ++ [REvent.mounted st.nextEl]⟩
            (ui + 1) hkr htr
          refine ⟨?_, hrec.2.1, ?_, ?_, ?_, ?_⟩
          · rw [hrec.1, List.length_cons]
            omega
          · simp only [List.length_cons]
            rw [hrec.2.2.1]
          · intro j nc oc _ h2
            rw [List.getElem?_eq_none (by omega)] at h2
            cases h2
          · obtain ⟨evs, he1, he2, he3⟩ := hrec.2.2.2.2.1
            refine ⟨REvent.mounted st.nextEl :: evs, ?_, ?_, ?_⟩
            · rw [he1]
              show (st.log ++ [REvent.mounted st.nextEl]) ++ evs = _
              rw [List.append_assoc, List.singleton_append]
            · intro ev hev
              rcases List.mem_cons.mp hev with rfl | hev2
              · rfl
              · exact he2 ev hev2
            · rw [List.filter_cons]
              rw [if_pos (by simp [isMount])]
              rw [List.length_cons, he3, List.length_cons]
              omega
          · rw [hrec.2.2.2.2.2]
            show (st.nextEl + 1) + _ = st.nextEl + _
            rw [List.length_cons]
            omega

/-- Building the keyed pool from unkeyed children yields nothing. -/
lemma buildKeyed_unkeyed :
    ∀ (old : List MVNode) (m : List (Nat × MVNode)),
      (∀ c ∈ old, c.key = none) → old.foldl keyedStep m = m := by
  intro old
  induction old with
  | nil => intro m _; rfl
  | cons c rest ih =>
      intro m h
      rw [List.foldl_cons]
      rw [show keyedStep m c = m from by
        unfold keyedStep
        rw [h c (List.mem_cons_self c rest)]]
      exact ih m (fun c2 hc2 => h c2 (List.mem_cons_of_mem c hc2))

/-- Unmounting a list of children appends exactly their unmount events. -/
lemma foldl_unmountChild_spec :
    ∀ (cs : List MVNode) (st : RState),
      (cs.foldl unmountChild st).log =
        st.log ++ cs.map (fun c => REvent.unmounted c.el) ∧
      (cs.foldl unmountChild st).nextEl = st.nextEl := by
  intro cs
  induction cs with
  | nil => intro st; exact ⟨(List.append_nil st.log).symm, rfl⟩
  | cons c rest ih =>
      intro st
      rw [List.foldl_cons]
      have h := ih (unmountChild st c)
      constructor
      · rw [h.1]
        show (st.log ++ [REvent.unmounted c.el]) ++ _ = _
        rw [List.map_cons, List.append_assoc, List.singleton_append]
      · exact h.2

/-- `patchChildren` on unkeyed lists: new children consume old children
positionally; a length change unmounts exactly the old positional surplus or
freshly mounts exactly the new surplus. -/
lemma unkeyed_positional_patch (st : RState) (old new : List MVNode)
    (hko : ∀ c ∈ old, c.key = none)
    (hkn : ∀ c ∈ new, c.key = none)
    (htypes : ∀ (j : Nat) (nc oc : MVNode), new[j]? = some nc →
      old[j]? = some oc → oc.vtype = nc.vtype) :
    (patchChildren st old new).2.length = new.length ∧
    (∀ (j : Nat) (nc oc : MVNode), new[j]? = some nc → old[j]? = some oc →
      (patchChildren st old new).2[j]? = some { nc with el := oc.el }) ∧
    (∃ evs, (patchChildren st old new).1.log = st.log ++ evs ++
        (old.drop new.length).map (fun c => REvent.unmounted c.el) ∧
      (∀ ev ∈ evs, isUnmount ev = false) ∧
      (evs.filter isMount).length = new.length - old.length) ∧
    (patchChildren st old new).1.nextEl =
      st.nextEl + (new.length - old.length) := by
  have hfil : old.filter (fun c => c.key.isNone) = old := by
    rw [List.filter_eq_self]
    intro c hc
    rw [hko c hc]
    rfl
  have hbk : buildKeyed old = [] := buildKeyed_unkeyed old [] hko
  have htypes0 : ∀ j nc oc, new[j]? = some nc → old[0 + j]? = some oc →
      oc.vtype = nc.vtype := by
    intro j nc oc h1 h2
    rw [Nat.zero_add] at h2
    exact htypes j nc oc h1 h2
  have hrec := patchNew_unkeyed old new st 0 hkn htypes0
  have hmax : (0 + new.length) - max 0 old.length = new.length - old.length := by
    omega
  refine ⟨?_, ?_, ?_, ?_⟩
  · show (patchChildren st old new).2.length = _
    simp only [patchChildren]
    rw [hfil, hbk]
    exact hrec.2.2.1
  · intro j nc oc h1 h2
    show (patchChildren st old new).2[j]? = _
    simp only [patchChildren]
    rw [hfil, hbk]
    refine hrec.2.2.2.1 j nc oc h1 ?_
    rw [Nat.zero_add]
    exact h2
  · obtain ⟨evs, he1, he2, he3⟩ := hrec.2.2.2.2.1
    refine ⟨evs, ?_, he2, ?_⟩
    · simp only [patchChildren]
      rw [hfil, hbk]
      rw [hrec.2.1]
      simp only [List.foldl_nil]
      rw [hrec.1, Nat.zero_add]
      rw [(foldl_unmountChild_spec (old.drop new.length)
        (patchNewChildren old st [] 0 new).1).1]
      rw [he1]
    · rw [he3]
      exact hmax
  · simp only [patchChildren]
    rw [hfil, hbk]
    rw [hrec.2.1]
    simp only [List.foldl_nil]
    rw [hrec.1, Nat.zero_add]
    rw [(foldl_unmountChild_spec (old.drop new.length)
      (patchNewChildren old st [] 0 new).1).2]
    rw [hrec.2.2.2.2.2]
    rw [hmax]

/-- Claim C7 (reconciliation keyed stability): when a keyed children list is
patched to a permutation of the same keys (with matching types), each
surviving keyed child is matched by key to its old vnode and patched in place
onto the old child's realized output — no keyed child is unmounted or
remounted and no output node is created; when an unkeyed list is patched, new
children consume old children positionally, and a length change unmounts
exactly the old positional surplus or freshly mounts exactly the new
surplus. -/
theorem keyed_stability_and_positional_patch
    (st st2 : RState) (old new old2 new2 : List MVNode) :
    ((∀ c ∈ old, c.key ≠ none) →
     (old.filterMap (fun c => c.key)).Nodup →
     (new.filterMap (fun c => c.key)).Nodup →
     (∀ c ∈ new, ∃ o ∈ old, o.key = c.key ∧ o.vtype = c.vtype) →
     (∀ o ∈ old, ∃ c ∈ new, c.key = o.key) →
      (patchChildren st old new).2 =
        new.map (fun c => { c with el := oldElFor old c }) ∧
      (patchChildren st old new).1.log =
        st.log ++ new.map (fun c => REvent.patched (oldElFor old c)) ∧
      (patchChildren st old new).1.nextEl = st.nextEl) ∧
    ((∀ c ∈ old2, c.key = none) →
     (∀ c ∈ new2, c.key = none) →
     (∀ (j : Nat) (nc oc : MVNode), new2[j]? = some nc →
        old2[j]? = some oc → oc.vtype = nc.vtype) →
      (patchChildren st2 old2 new2).2.length = new2.length ∧
      (∀ (j : Nat) (nc oc : MVNode), new2[j]? = some nc →
        old2[j]? = some oc →
        (patchChildren st2 old2 new2).2[j]? = some { nc with el := oc.el }) ∧
      (∃ evs, (patchChildren st2 old2 new2).1.log = st2.log ++ evs ++
          (old2.drop new2.length).map (fun c => REvent.unmounted c.el) ∧
        (∀ ev ∈ evs, isUnmount ev = false) ∧
        (evs.filter isMount).length = new2.length - old2.length) ∧
      (patchChildren st2 old2 new2).1.nextEl =
        st2.nextEl + (new2.length - old2.length)) :=
  ⟨fun h1 h2 h3 h4 h5 => keyed_permutation_patch st old new h1 h2 h3 h4 h5,
   fun h1 h2 h3 => unkeyed_positional_patch st2 old2 new2 h1 h2 h3⟩

/-- Witness for keyed_stability_and_positional_patch: keys [a, b, c] patched
to [c, a, b] keep their realized outputs with nothing created; the unkeyed
pair patched down to one child unmounts exactly the surplus. -/
theorem keyed_stability_and_positional_patch_witness :
    (∀ c ∈ wOldKeyed, c.key ≠ none) ∧
    (wOldKeyed.filterMap (fun c => c.key)).Nodup ∧
    (wNewKeyed.filterMap (fun c => c.key)).Nodup ∧
    (∀ c ∈ wNewKeyed, ∃ o ∈ wOldKeyed, o.key = c.key ∧ o.vtype = c.vtype) ∧
    (∀ o ∈ wOldKeyed, ∃ c ∈ wNewKeyed, c.key = o.key) ∧
    (patchChildren ⟨200, []⟩ wOldKeyed wNewKeyed).2 =
      wNewKeyed.map (fun c => { c with el := oldElFor wOldKeyed c }) ∧
    (patchChildren ⟨200, []⟩ wOldKeyed wNewKeyed).1.nextEl = 200 ∧
    (∀ c ∈ wOldPos, c.key = none) ∧
    (∀ c ∈ wNewPos, c.key = none) ∧
    (∀ (j : Nat) (nc oc : MVNode), wNewPos[j]? = some nc →
      wOldPos[j]? = some oc → oc.vtype = nc.vtype) ∧
    (∃ evs, (patchChildren ⟨300, []⟩ wOldPos wNewPos).1.log =
        ([] : List REvent) ++ evs ++
        (wOldPos.drop wNewPos.length).map (fun c => REvent.unmounted c.el) ∧
      (∀ ev ∈ evs, isUnmount ev = false) ∧
      (evs.filter isMount).length = wNewPos.length - wOldPos.length) := by
  have htB : ∀ (j : Nat) (nc oc : MVNode), wNewPos[j]? = some nc →
      wOldPos[j]? = some oc → oc.vtype = nc.vtype := by
    intro j nc oc h1 h2
    cases j with
    | zero =>
        simp only [wNewPos, wOldPos, List.getElem?_cons_zero,
          Option.some.injEq] at h1 h2
        subst h1
        subst h2
        rfl
    | succ j2 =>
        simp only [wNewPos, List.getElem?_cons_succ, List.getElem?_nil] at h1
        cases h1
  have h := keyed_stability_and_positional_patch ⟨200, []⟩ ⟨300, []⟩
    wOldKeyed wNewKeyed wOldPos wNewPos
  have hA := h.1 (by decide) (by decide) (by decide) (by decide) (by decide)
  have hB := h.2 (by decide) (by decide) htB
  exact ⟨by decide, by decide, by decide, by decide, by decide,
    hA.1, hA.2.2, by decide, by decide, htB, hB.2.2.1⟩

end Bromium

